import Mathlib

/-!
Verification development for the manga-translator server core.

The Python source (src/server/grouping.py, src/server/translate.py,
src/server/context_store.py) is shallowly embedded below.  Python floats are
modelled as exact rationals (ℚ), Python dicts as association lists whose
assignment keeps the first position of an existing key, and Python exceptions
as Except / explicit outcome values.  Network providers are modelled by an
oracle giving the outcome of each attempt; wall-clock time is a ℚ state that
advances exactly by the amount slept (a minimal-time model, matching the
injectable-clock style of testing the spec asks for).
-/

namespace MangaTranslator

/-- A 2-D point, grouping.py / types.py `Point`. -/
abbrev Point : Type := ℚ × ℚ

/-- An axis-aligned box `(x0, y0, x1, y1)`, types.py `BBox`. -/
abbrev BBox : Type := ℚ × ℚ × ℚ × ℚ

/-- Python `max(a, b)` on ℚ, written out so that it evaluates inside the
kernel (the lattice `max` of ℚ does not reduce definitionally). -/
def maxQ (a b : ℚ) : ℚ :=
  if a ≤ b then b else a

/-- Python `min(a, b)` on ℚ. -/
def minQ (a b : ℚ) : ℚ :=
  if b ≤ a then b else a

/-- Python `abs` on ℚ. -/
def absQ (q : ℚ) : ℚ :=
  if q < 0 then -q else q

theorem maxQ_eq_max (a b : ℚ) : maxQ a b = max a b := by
  unfold maxQ
  rcases le_or_lt a b with h | h
  · rw [if_pos h, max_eq_right h]
  · rw [if_neg (not_le.mpr h), max_eq_left h.le]

theorem minQ_eq_min (a b : ℚ) : minQ a b = min a b := by
  unfold minQ
  rcases le_or_lt b a with h | h
  · rw [if_pos h, min_eq_right h]
  · rw [if_neg (not_le.mpr h), min_eq_left h.le]

/-- types.py `OCRWord`: the OCR collaborator supplies `poly` with exactly four
vertices; the embedding keeps a plain list (only min/max over it are used). -/
structure OCRWord where
  text : String
  poly : List Point
deriving DecidableEq, Repr

/-- grouping.py / types.py orientation literal. -/
inductive Orientation where
  | horizontal
  | vertical
deriving DecidableEq, Repr

/-- types.py `WordGroup`.  `kr_text` is the optional key read with
`.get("kr_text", "")` in translate.py, so absence is modelled as `""`. -/
structure WordGroup where
  id : String
  bbox : BBox
  word_idx : List Nat
  orientation : Orientation
  kr_text : String := ""
deriving DecidableEq, Repr

/-- Stable insertion of `x` behind every already-placed element that is
`le`-below-or-equal to it. -/
def stableInsert (le : α → α → Bool) (x : α) : List α → List α
  | [] => [x]
  | y :: ys => if le y x then y :: stableInsert le x ys else x :: y :: ys

/-- Python `sorted(l, key=...)` with the key comparison folded into a total
preorder `le`: a stable sort, modelled as stable insertion sort (stable sorts
of a total preorder agree elementwise, so this matches timsort), written
structurally so it evaluates inside the kernel. -/
def stableSort (le : α → α → Bool) (l : List α) : List α :=
  l.foldl (fun acc x => stableInsert le x acc) []

theorem stableInsert_perm (le : α → α → Bool) (x : α) :
    ∀ l : List α, (stableInsert le x l).Perm (x :: l) := by
  intro l
  induction l with
  | nil => exact List.Perm.refl _
  | cons y ys ih =>
      by_cases h : le y x = true
      · rw [stableInsert, if_pos h]
        exact (ih.cons y).trans (List.Perm.swap x y ys)
      · rw [stableInsert, if_neg h]

theorem stableSort_perm (le : α → α → Bool) (l : List α) : (stableSort le l).Perm l := by
  suffices h : ∀ (l acc : List α),
      (l.foldl (fun acc x => stableInsert le x acc) acc).Perm (acc ++ l) by
    simpa using h l []
  intro l
  induction l with
  | nil => intro acc; simp
  | cons x xs ih =>
      intro acc
      refine (ih (stableInsert le x acc)).trans ?_
      refine (((stableInsert_perm le x acc).append_right xs).trans ?_)
      simpa using (List.perm_middle).symm

/-- Minimum of a list, `min(xs)` in Python; the default 0 branch is
unreachable at every call site (polygons and components are non-empty). -/
def minList : List ℚ → ℚ
  | [] => 0
  | x :: xs => xs.foldl minQ x

/-- Maximum of a list, `max(xs)` in Python. -/
def maxList : List ℚ → ℚ
  | [] => 0
  | x :: xs => xs.foldl maxQ x

/-- grouping.py `_polygon_to_box`. -/
def polygonToBox (poly : List Point) : BBox :=
  (minList (poly.map Prod.fst), minList (poly.map Prod.snd),
   maxList (poly.map Prod.fst), maxList (poly.map Prod.snd))

/-- grouping.py `_box_center`. -/
def boxCenter (box : BBox) : Point :=
  ((box.1 + box.2.2.1) / 2, (box.2.1 + box.2.2.2) / 2)

/-- grouping.py `_box_height`: `max(1.0, box[3] - box[1])`. -/
def boxHeight (box : BBox) : ℚ :=
  maxQ 1 (box.2.2.2 - box.2.1)

/-- grouping.py `_variance` (population variance, 0 on empty input). -/
def varianceQ (values : List ℚ) : ℚ :=
  if values = [] then 0
  else
    let mean := values.sum / values.length
    (values.map (fun v => (v - mean) * (v - mean))).sum / values.length

/-- grouping.py `_axis_gap`. -/
def axisGap (a0 a1 b0 b1 : ℚ) : ℚ :=
  if a1 < b0 then b0 - a1
  else if b1 < a0 then a0 - b1
  else 0

/-- grouping.py `_boxes_close`; `math.hypot(gx, gy) <= t` is stated on squares
(`gx² + gy² ≤ t²`), which is equivalent for the non-negative gaps and
non-negative thresholds arising here and keeps the model inside ℚ. -/
def boxesClose (boxA boxB : BBox) (threshold : ℚ) : Bool :=
  let gapX := axisGap boxA.1 boxA.2.2.1 boxB.1 boxB.2.2.1
  let gapY := axisGap boxA.2.1 boxA.2.2.2 boxB.2.1 boxB.2.2.2
  if gapX = 0 ∧ gapY = 0 then true
  else decide (gapX * gapX + gapY * gapY ≤ threshold * threshold)

/-- Python `statistics.median`: sort, middle element (odd length) or mean of
the two middle elements (even length). -/
def medianQ (l : List ℚ) : ℚ :=
  let s := stableSort (fun a b => decide (a ≤ b)) l
  let n := l.length
  if n % 2 = 1 then s.getD (n / 2) 0
  else (s.getD (n / 2 - 1) 0 + s.getD (n / 2) 0) / 2

/-- grouping.py `_neighbors_naive`.  The Python double loop appends to
`adjacency[k]` every close `i < k` (in ascending outer-loop order) and then
every close `j > k` (ascending inner loop), so list `k` is exactly the
ascending list of all close indices different from `k`; the comparison is on
squared distances, as in the source. -/
def neighborsNaive (points : List Point) (radius : ℚ) : List (List Nat) :=
  (List.range points.length).map (fun i =>
    (List.range points.length).filter (fun j =>
      decide (j ≠ i) &&
        match points.get? i, points.get? j with
        | some (x1, y1), some (x2, y2) =>
            decide ((x1 - x2) * (x1 - x2) + (y1 - y2) * (y1 - y2) ≤ radius * radius)
        | _, _ => false))

/-- One BFS of grouping.py `_connected_components`: `queue` is the deque,
`seen` the visitation set (kept as a list, only membership is used), `comp`
the component being built.  `fuel` bounds the number of loop iterations; the
caller passes a bound no run can exhaust (each pop consumes one unit and at
most `1 + Σ |adjacency[i]|` values are ever enqueued). -/
def bfs (adj : List (List Nat)) : Nat → List Nat → List Nat → List Nat → List Nat × List Nat
  | 0, _, seen, comp => (seen, comp)
  | _ + 1, [], seen, comp => (seen, comp)
  | fuel + 1, node :: queue, seen, comp =>
      if node ∈ seen then bfs adj fuel queue seen comp
      else bfs adj fuel (queue ++ adj.getD node []) (seen ++ [node]) (comp ++ [node])

/-- Outer loop of grouping.py `_connected_components` over all start nodes. -/
def ccAux (adj : List (List Nat)) (fuel : Nat) : List Nat → List Nat → List (List Nat)
  | [], _ => []
  | start :: rest, seen =>
      if start ∈ seen then ccAux adj fuel rest seen
      else
        let p := bfs adj fuel [start] seen []
        p.2 :: ccAux adj fuel rest p.1

/-- grouping.py `_connected_components`. -/
def connectedComponents (adj : List (List Nat)) : List (List Nat) :=
  ccAux adj (1 + adj.length + (adj.map List.length).sum) (List.range adj.length) []

/-- grouping.py `_merge_adjacent_groups`: bbox of a fused pair. -/
def unionBox (a b : BBox) : BBox :=
  (minQ a.1 b.1, minQ a.2.1 b.2.1, maxQ a.2.2.1 b.2.2.1, maxQ a.2.2.2 b.2.2.2)

/-- Fusing `group` into the accumulator entry `target` (index union before the
final dedup pass, bbox expansion). -/
def mergeInto (target group : WordGroup) : WordGroup :=
  { target with
    word_idx := target.word_idx ++ group.word_idx,
    bbox := unionBox target.bbox group.bbox }

/-- The inner scan of `_merge_adjacent_groups`: walk the accumulator in order
and fuse `group` into the first entry with matching orientation and close
boxes (`break` after the first hit); `none` when no entry matches. -/
def mergeOne (group : WordGroup) (proximity : ℚ) : List WordGroup → Option (List WordGroup)
  | [] => none
  | e :: rest =>
      if e.orientation = group.orientation ∧ boxesClose e.bbox group.bbox proximity then
        some (mergeInto e group :: rest)
      else (mergeOne group proximity rest).map (fun l => e :: l)

/-- One step of the accumulator loop: fuse into the first close same-orientation
entry, or append a fresh copy (the copied dict keeps id, bbox, word_idx and
orientation; there is no kr_text key at this stage). -/
def mergeStep (proximity : ℚ) (acc : List WordGroup) (group : WordGroup) : List WordGroup :=
  match mergeOne group proximity acc with
  | some acc' => acc'
  | none => acc ++ [{ id := group.id, bbox := group.bbox, word_idx := group.word_idx,
                      orientation := group.orientation }]

/-- Python `sorted(set(xs))`: the ascending list of the distinct elements. -/
def sortedDedup (l : List Nat) : List Nat :=
  stableSort (fun a b => decide (a ≤ b)) l.dedup

/-- Sort key of `_merge_adjacent_groups`: ascending by `(bbox[1], bbox[0])`
(lexicographic, as Python compares key tuples). -/
def mergeSortKeyLe (a b : WordGroup) : Bool :=
  decide (a.bbox.2.1 < b.bbox.2.1 ∨ (a.bbox.2.1 = b.bbox.2.1 ∧ a.bbox.1 ≤ b.bbox.1))

/-- grouping.py `_merge_adjacent_groups`. -/
def mergeAdjacentGroups (groups : List WordGroup) (radius : ℚ) : List WordGroup :=
  if groups.length ≤ 1 then groups
  else
    let proximity := maxQ 12 (radius * (6 / 10))
    let merged := (stableSort mergeSortKeyLe groups).foldl (mergeStep proximity) []
    merged.enum.map (fun p =>
      { p.2 with word_idx := sortedDedup p.2.word_idx, id := "g_" ++ toString p.1 })

/-- Lines 156–160 of grouping.py `group_words`: the neighbour radius,
`1.4 × median(heights)` with the dead-code default `20.0` for an empty
height list (the empty case is returned early by `group_words` itself). -/
def groupRadius (words : List OCRWord) : ℚ :=
  let heights := (words.map (fun w => polygonToBox w.poly)).map boxHeight
  let heightMed := if heights = [] then 20 else medianQ heights
  heightMed * (14 / 10)

/-- Orientation decision of `group_words`: `vertical` iff
`var_y > var_x * 1.3` over the member centers. -/
def orientationOf (centers : List Point) (comp : List Nat) : Orientation :=
  let xs := comp.filterMap (fun i => (centers.get? i).map Prod.fst)
  let ys := comp.filterMap (fun i => (centers.get? i).map Prod.snd)
  if varianceQ xs * (13 / 10) < varianceQ ys then .vertical else .horizontal

/-- Bounding box of one component in `group_words` (min/max over member
boxes; components are non-empty so the `minList`/`maxList` defaults are
unreachable). -/
def compBBox (boxes : List BBox) (comp : List Nat) : BBox :=
  (minList (comp.filterMap (fun i => (boxes.get? i).map (fun b => b.1))),
   minList (comp.filterMap (fun i => (boxes.get? i).map (fun b => b.2.1))),
   maxList (comp.filterMap (fun i => (boxes.get? i).map (fun b => b.2.2.1))),
   maxList (comp.filterMap (fun i => (boxes.get? i).map (fun b => b.2.2.2))))

/-- grouping.py `group_words`.  The adjacency is the naive pairwise scan: the
source picks the KDTree path only when scipy is installed, falls back to
`_neighbors_naive` otherwise, and §4.1 of the spec requires the two to give
bitwise-identical neighbour relations. -/
def group_words (words : List OCRWord) : List WordGroup :=
  if words = [] then []
  else
    let boxes := words.map (fun w => polygonToBox w.poly)
    let centers := boxes.map boxCenter
    let radius := groupRadius words
    let adjacency := neighborsNaive centers radius
    let components := connectedComponents adjacency
    let groups := components.enum.map (fun p =>
      { id := "g_" ++ toString p.1,
        bbox := compBBox boxes p.2,
        word_idx := p.2,
        orientation := orientationOf centers p.2 : WordGroup })
    mergeAdjacentGroups groups radius

/-! ## translate.py: constants, batching and reading order -/

/-- translate.py `MAX_ITEMS_PER_REQUEST`. -/
def MAX_ITEMS_PER_REQUEST : Nat := 40

/-- translate.py `MAX_JSON_CHARS_PER_REQUEST`. -/
def MAX_JSON_CHARS_PER_REQUEST : Nat := 12000

/-- translate.py `MAX_RETRIES`. -/
def MAX_RETRIES : Nat := 3

/-- translate.py `INITIAL_RETRY_DELAY_SECONDS`. -/
def INITIAL_RETRY_DELAY_SECONDS : ℚ := 3

/-- translate.py `MIN_SECONDS_BETWEEN_CALLS` (1.2 s). -/
def MIN_SECONDS_BETWEEN_CALLS : ℚ := 6 / 5

/-- One payload entry, the dict `{"id": ..., "kr": ...}` built per group. -/
structure PayloadEntry where
  id : String
  kr : String
deriving DecidableEq, Repr

/-- translate.py line 179: the payload entry of one group. -/
def payloadOf (g : WordGroup) : PayloadEntry :=
  ⟨g.id, g.kr_text⟩

/-- Characters `json.dumps` (ensure_ascii=False) renders escaped: a quote or a
backslash become two characters, the five short control escapes two, any other
control character six, everything else one. -/
def jsonCharLen (c : Char) : Nat :=
  if c = '"' ∨ c = '\\' then 2
  else if c.toNat < 32 then
    if c = '\x08' ∨ c = '\t' ∨ c = '\n' ∨ c = '\x0c' ∨ c = '\r' then 2 else 6
  else 1

/-- Length of the JSON rendering of a string body (without its quotes). -/
def jsonStrLen (s : String) : Nat :=
  (s.data.map jsonCharLen).sum

/-- Length of `json.dumps({"id": e.id, "kr": e.kr}, ensure_ascii=False)`:
the fixed frame is 20 characters plus the two escaped bodies. -/
def entrySize (e : PayloadEntry) : Nat :=
  20 + jsonStrLen e.id + jsonStrLen e.kr

/-- Size bookkeeping of `_batched_groups`: prefix + suffix (12 characters)
plus every entry plus one separator between consecutive entries. -/
def serializedSize (payload : List PayloadEntry) : Nat :=
  12 + (payload.map entrySize).sum + (payload.length - 1)

/-- translate.py `_batched_groups`, loop state made explicit: `curG`/`curP`
are `current_groups`/`current_payload` and `curSize` is `current_size`. -/
def batchedAux : List WordGroup → List WordGroup → List PayloadEntry → Nat →
    List (List WordGroup × List PayloadEntry)
  | [], curG, curP, _ => if curP = [] then [] else [(curG, curP)]
  | g :: rest, curG, curP, curSize =>
      let e := payloadOf g
      let es := entrySize e
      let sep := if curP = [] then 0 else 1
      if curP ≠ [] ∧ (MAX_ITEMS_PER_REQUEST ≤ curP.length ∨
          MAX_JSON_CHARS_PER_REQUEST < curSize + sep + es) then
        (curG, curP) :: batchedAux rest [g] [e] (12 + es)
      else
        batchedAux rest (curG ++ [g]) (curP ++ [e]) (curSize + sep + es)

/-- translate.py `_batched_groups`. -/
def batchedGroups (groups : List WordGroup) : List (List WordGroup × List PayloadEntry) :=
  batchedAux groups [] [] 12

/-- The annotation record of `_order_groups_left_to_right`. -/
structure AnnotatedGroup where
  group : WordGroup
  xCenter : ℚ
  yCenter : ℚ
  width : ℚ
deriving DecidableEq, Repr

/-- Lines 206–223 of `_order_groups_left_to_right` (the float conversion of a
bbox of four rationals never raises, so the except branch is dead). -/
def annotate (g : WordGroup) : AnnotatedGroup :=
  let x0 := g.bbox.1
  let y0 := g.bbox.2.1
  let width := maxQ (g.bbox.2.2.1 - x0) 1
  let height := maxQ (g.bbox.2.2.2 - y0) 1
  ⟨g, x0 + width / 2, y0 + height / 2, width⟩

/-- A column accumulator of `_order_groups_left_to_right`. -/
structure ColumnAcc where
  xCenter : ℚ
  tolerance : ℚ
  items : List AnnotatedGroup
deriving DecidableEq, Repr

/-- Lines 243–246: append the item to the chosen column, update the running
mean of x-centers and widen the tolerance. -/
def colUpdate (item : AnnotatedGroup) (c : ColumnAcc) : ColumnAcc :=
  let items := c.items ++ [item]
  let count : ℚ := items.length
  { xCenter := c.xCenter + (item.xCenter - c.xCenter) / count,
    tolerance := maxQ c.tolerance (maxQ (item.width * (3 / 2)) 64),
    items := items }

/-- Lines 229–246: place one item in the first column whose running x-center
is within tolerance, opening a new column at the end when none matches. -/
def placeItem : List ColumnAcc → AnnotatedGroup → List ColumnAcc
  | [], item => [colUpdate item ⟨item.xCenter, maxQ (item.width * (3 / 2)) 64, []⟩]
  | c :: cs, item =>
      if absQ (item.xCenter - c.xCenter) ≤ c.tolerance then colUpdate item c :: cs
      else c :: placeItem cs item

/-- translate.py `_order_groups_left_to_right`. -/
def orderGroupsLeftToRight (groups : List WordGroup) : List WordGroup :=
  let annotated := groups.map annotate
  if annotated.isEmpty then groups
  else
    let sortedItems := stableSort (fun a b => decide (a.xCenter ≤ b.xCenter)) annotated
    let columns := sortedItems.foldl placeItem []
    let sortedCols := stableSort (fun a b => decide (a.xCenter ≤ b.xCenter)) columns
    sortedCols.flatMap (fun c =>
      ((stableSort (fun a b => decide (a.yCenter ≤ b.yCenter)) c.items).map
        (fun a => a.group)))

/-! ## Python dict model and the orchestrator -/

/-- Python dict assignment `d[k] = v`: overwrite in place when the key exists,
append otherwise. -/
def dinsert (d : List (String × String)) (k v : String) : List (String × String) :=
  if k ∈ d.map Prod.fst then d.map (fun p => if p.1 = k then (k, v) else p)
  else d ++ [(k, v)]

/-- The translations dict seen by the loop body of `translate_groups_kr_to_en`:
the provider mapping on success, the empty dict after a `TranslationError`. -/
def translationsOf (behav : Nat → Except Unit (List (String × String))) (i : Nat) :
    List (String × String) :=
  match behav i with
  | .ok d => d
  | .error _ => []

/-- Lines 550–553: `text = translations.get(id, fallback)` followed by
`text or fallback` (the empty string is falsy). -/
def translateValue (translations : List (String × String)) (g : WordGroup) : String :=
  let fallback := g.kr_text
  let text := (translations.lookup g.id).getD fallback
  if text = "" then fallback else text

/-- translate.py `translate_groups_kr_to_en`, with the selected provider
abstracted into `behav`: the outcome of the `translate_batch` call on the
batch of index `i` — a returned mapping, or `.error ()` for a raised
`TranslationError` (which the orchestrator turns into the empty dict). -/
def translate_groups_kr_to_en (behav : Nat → Except Unit (List (String × String)))
    (groups : List WordGroup) : List (String × String) :=
  let groupsList := orderGroupsLeftToRight groups
  ((batchedGroups groupsList).enum).foldl
    (fun acc p =>
      p.2.1.foldl (fun acc g => dinsert acc g.id (translateValue (translationsOf behav p.1) g)) acc)
    []

/-! ## Rate limiter and the two provider retry loops

Wall-clock time is modelled by a ℚ `now` that advances exactly by the amount
slept (minimal-time model: every other operation takes zero time, the
adversarial schedule for a lower-bound separation guarantee).  The process
globals `_last_api_call` and the monotonic clock form the state. -/

/-- The shared mutable state of translate.py: the monotonic clock reading and
the module-level `_last_api_call`. -/
structure ApiState where
  now : ℚ
  lastApi : ℚ
deriving DecidableEq, Repr

/-- translate.py `_respect_rate_limit`, executed atomically under
`_rate_limit_lock`.  `MIN_SECONDS_BETWEEN_CALLS = 1.2 > 0`, so the early
return is never taken; when a positive wait remains the thread sleeps it off
and re-reads the clock, and `_last_api_call` is set to the new reading. -/
def respectRateLimit (s : ApiState) : ApiState :=
  let wait := s.lastApi + MIN_SECONDS_BETWEEN_CALLS - s.now
  if 0 < wait then
    let now' := s.now + wait
    ⟨now', now'⟩
  else ⟨s.now, s.now⟩

/-- Building the id→en dict from a parsed items list, the comprehension
`{item["id"]: item["en"] for item in items if item["id"]}` shared by both
providers (empty ids skipped, later duplicates overwrite). -/
def itemsToDict (items : List (String × String)) : List (String × String) :=
  items.foldl (fun d p => if p.1 = "" then d else dinsert d p.1 p.2) []

/-- Everything one Cerebras attempt can observe, translate.py lines 336–356:
a parsed response, an empty choices list (raises a `TranslationError`, caught
by the generic handler), a body that fails `json.loads` (raises
`json.JSONDecodeError`), or any other exception carrying an optional
Retry-After hint extracted by `_retry_after_seconds`. -/
inductive CerebrasOutcome where
  | ok (items : List (String × String))
  | emptyChoices
  | malformed
  | exn (retryAfter : Option ℚ)
deriving DecidableEq, Repr

/-- A trace of one `translate_batch` run: its result, how many times the
remote provider was invoked, the clock reading at each invocation, the value
of `delay` on entry to each attempt, and the final shared state. -/
structure ProviderTrace where
  result : Except Unit (List (String × String))
  calls : Nat
  callTimes : List ℚ
  entryDelays : List ℚ
  state : ApiState
deriving Repr

/-- The retry loop of `CerebrasTranslator.translate_batch` (lines 332–378)
driven by an `oracle` giving each attempt's outcome.  Every attempt first
passes the rate-limit gate and then issues the API call; a decode failure
raises `TranslationError` at once; any other exception sleeps the current
`delay` and then updates it — `max(hint, delay * 1.5)` when a Retry-After
hint is present, `delay * 1.5` otherwise. -/
def cerebrasLoop (oracle : Nat → CerebrasOutcome) :
    Nat → Nat → ℚ → ApiState → ProviderTrace
  | _, 0, _, s => ⟨.error (), 0, [], [], s⟩
  | attempt, r + 1, delay, s =>
      let s₁ := respectRateLimit s
      match oracle attempt with
      | .ok items => ⟨.ok (itemsToDict items), 1, [s₁.now], [delay], s₁⟩
      | .malformed => ⟨.error (), 1, [s₁.now], [delay], s₁⟩
      | .emptyChoices =>
          let s₂ : ApiState := ⟨s₁.now + delay, s₁.lastApi⟩
          let t := cerebrasLoop oracle (attempt + 1) r (delay * (3 / 2)) s₂
          ⟨t.result, t.calls + 1, s₁.now :: t.callTimes, delay :: t.entryDelays, t.state⟩
      | .exn hint =>
          let s₂ : ApiState := ⟨s₁.now + delay, s₁.lastApi⟩
          let delay' := match hint with
            | some h => maxQ h (delay * (3 / 2))
            | none => delay * (3 / 2)
          let t := cerebrasLoop oracle (attempt + 1) r delay' s₂
          ⟨t.result, t.calls + 1, s₁.now :: t.callTimes, delay :: t.entryDelays, t.state⟩

/-- `CerebrasTranslator.translate_batch` for an available client: up to
`MAX_RETRIES` attempts starting from `INITIAL_RETRY_DELAY_SECONDS`. -/
def cerebrasRun (oracle : Nat → CerebrasOutcome) (s : ApiState) : ProviderTrace :=
  cerebrasLoop oracle 0 MAX_RETRIES INITIAL_RETRY_DELAY_SECONDS s

/-- Everything one Gemini attempt can observe, translate.py lines 417–457:
a parsed response; an HTTP 429 whose Retry-After header is absent
(`none`), present but not a float (`some none`) or a float (`some (some h)`);
any other `requests.RequestException` or in-loop `TranslationError` (the
Retry-After header a failed response may carry is never read on this path);
or a body on which `json.loads` raises. -/
inductive GeminiOutcome where
  | ok (items : List (String × String))
  | http429 (retryAfter : Option (Option ℚ))
  | transientErr (retryAfter : Option ℚ)
  | malformed
deriving DecidableEq, Repr

/-- The retry loop of `GeminiTranslator.translate_batch` (lines 413–470).
No attempt consults the rate-limit gate.  A 429 updates `delay` before
raising (`max(header, delay * 1.5)` for a parsed header, `delay * 1.5`
otherwise); every caught exception — including a JSON decode failure — then
sleeps the current `delay` and multiplies it by 1.5. -/
def geminiLoop (oracle : Nat → GeminiOutcome) :
    Nat → Nat → ℚ → ApiState → ProviderTrace
  | _, 0, _, s => ⟨.error (), 0, [], [], s⟩
  | attempt, r + 1, delay, s =>
      match oracle attempt with
      | .ok items => ⟨.ok (itemsToDict items), 1, [s.now], [delay], s⟩
      | .http429 header =>
          let d₁ := match header with
            | some (some h) => maxQ h (delay * (3 / 2))
            | some none => delay * (3 / 2)
            | none => delay * (3 / 2)
          let s₂ : ApiState := ⟨s.now + d₁, s.lastApi⟩
          let t := geminiLoop oracle (attempt + 1) r (d₁ * (3 / 2)) s₂
          ⟨t.result, t.calls + 1, s.now :: t.callTimes, delay :: t.entryDelays, t.state⟩
      | .transientErr _ =>
          let s₂ : ApiState := ⟨s.now + delay, s.lastApi⟩
          let t := geminiLoop oracle (attempt + 1) r (delay * (3 / 2)) s₂
          ⟨t.result, t.calls + 1, s.now :: t.callTimes, delay :: t.entryDelays, t.state⟩
      | .malformed =>
          let s₂ : ApiState := ⟨s.now + delay, s.lastApi⟩
          let t := geminiLoop oracle (attempt + 1) r (delay * (3 / 2)) s₂
          ⟨t.result, t.calls + 1, s.now :: t.callTimes, delay :: t.entryDelays, t.state⟩

/-- `GeminiTranslator.translate_batch` for a configured key. -/
def geminiRun (oracle : Nat → GeminiOutcome) (s : ApiState) : ProviderTrace :=
  geminiLoop oracle 0 MAX_RETRIES INITIAL_RETRY_DELAY_SECONDS s

/-! ## context_store.py -/

/-- A context entry handed to `ContextStore.append`.  The TypedDict keys are
all optional and `append` only distinguishes falsy from truthy text values,
so a missing or empty string both become `""`; the timestamp keeps its
present/absent distinction (`entry.get("timestamp", now)`). -/
structure ContextEntryIn where
  kr : String
  en : String
  timestamp : Option ℚ
deriving DecidableEq, Repr

/-- An entry as stored by `append`: all three keys filled in. -/
structure StoredEntry where
  kr : String
  en : String
  timestamp : ℚ
deriving DecidableEq, Repr

/-- Lines 90–102 of context_store.py: drop entries whose texts are both
falsy, default the timestamp to `now`. -/
def cleanEntries (now : ℚ) (entries : List ContextEntryIn) : List StoredEntry :=
  entries.filterMap (fun e =>
    if e.kr = "" ∧ e.en = "" then none
    else some ⟨e.kr, e.en, e.timestamp.getD now⟩)

/-- Assignment into the store dict (`self._data.setdefault` followed by
mutation of the list object): overwrite the value at an existing key in
place, append a new key at the end. -/
def storeSet (data : List (String × List StoredEntry)) (k : String) (v : List StoredEntry) :
    List (String × List StoredEntry) :=
  if k ∈ data.map Prod.fst then data.map (fun p => if p.1 = k then (k, v) else p)
  else data ++ [(k, v)]

/-- context_store.py `ContextStore.append` acting on the in-memory `_data`
map (`_persist` only mirrors it to disk): extend the history of the
conversation and trim to the last `maxEntries` (`del history[:-max_entries]`
discards the oldest first). -/
def storeAppend (maxEntries : Nat) (data : List (String × List StoredEntry))
    (conversationId : String) (entries : List ContextEntryIn) (now : ℚ) :
    List (String × List StoredEntry) :=
  if conversationId = "" ∨ entries = [] then data
  else
    let clean := cleanEntries now entries
    if clean = [] then data
    else
      let history := ((data.lookup conversationId).getD []) ++ clean
      let trimmed := if maxEntries < history.length then
          history.drop (history.length - maxEntries)
        else history
      storeSet data conversationId trimmed

/-! ## Step lemmas for the provider loops -/

theorem cerebrasLoop_ok {o : Nat → CerebrasOutcome} {a : Nat} {items : List (String × String)}
    (r : Nat) (d : ℚ) (s : ApiState) (h : o a = .ok items) :
    cerebrasLoop o a (r + 1) d s =
      ⟨.ok (itemsToDict items), 1, [(respectRateLimit s).now], [d], respectRateLimit s⟩ := by
  simp [cerebrasLoop, h]

theorem cerebrasLoop_malformed {o : Nat → CerebrasOutcome} {a : Nat}
    (r : Nat) (d : ℚ) (s : ApiState) (h : o a = .malformed) :
    cerebrasLoop o a (r + 1) d s =
      ⟨.error (), 1, [(respectRateLimit s).now], [d], respectRateLimit s⟩ := by
  simp [cerebrasLoop, h]

theorem cerebrasLoop_exn {o : Nat → CerebrasOutcome} {a : Nat} {hint : Option ℚ}
    (r : Nat) (d : ℚ) (s : ApiState) (h : o a = .exn hint) :
    cerebrasLoop o a (r + 1) d s =
      (let s₁ := respectRateLimit s
       let t := cerebrasLoop o (a + 1) r
         (match hint with | some q => maxQ q (d * (3 / 2)) | none => d * (3 / 2))
         ⟨s₁.now + d, s₁.lastApi⟩
       ⟨t.result, t.calls + 1, s₁.now :: t.callTimes, d :: t.entryDelays, t.state⟩) := by
  cases hint <;> simp [cerebrasLoop, h]

theorem cerebrasLoop_emptyChoices {o : Nat → CerebrasOutcome} {a : Nat}
    (r : Nat) (d : ℚ) (s : ApiState) (h : o a = .emptyChoices) :
    cerebrasLoop o a (r + 1) d s =
      (let s₁ := respectRateLimit s
       let t := cerebrasLoop o (a + 1) r (d * (3 / 2)) ⟨s₁.now + d, s₁.lastApi⟩
       ⟨t.result, t.calls + 1, s₁.now :: t.callTimes, d :: t.entryDelays, t.state⟩) := by
  simp [cerebrasLoop, h]

theorem geminiLoop_ok {o : Nat → GeminiOutcome} {a : Nat} {items : List (String × String)}
    (r : Nat) (d : ℚ) (s : ApiState) (h : o a = .ok items) :
    geminiLoop o a (r + 1) d s = ⟨.ok (itemsToDict items), 1, [s.now], [d], s⟩ := by
  simp [geminiLoop, h]

theorem geminiLoop_http429 {o : Nat → GeminiOutcome} {a : Nat} {header : Option (Option ℚ)}
    (r : Nat) (d : ℚ) (s : ApiState) (h : o a = .http429 header) :
    geminiLoop o a (r + 1) d s =
      (let d₁ := match header with
        | some (some q) => maxQ q (d * (3 / 2))
        | some none => d * (3 / 2)
        | none => d * (3 / 2)
       let t := geminiLoop o (a + 1) r (d₁ * (3 / 2)) ⟨s.now + d₁, s.lastApi⟩
       ⟨t.result, t.calls + 1, s.now :: t.callTimes, d :: t.entryDelays, t.state⟩) := by
  rcases header with _ | hh
  · simp [geminiLoop, h]
  · cases hh <;> simp [geminiLoop, h]

theorem geminiLoop_transient {o : Nat → GeminiOutcome} {a : Nat} {hint : Option ℚ}
    (r : Nat) (d : ℚ) (s : ApiState) (h : o a = .transientErr hint) :
    geminiLoop o a (r + 1) d s =
      (let t := geminiLoop o (a + 1) r (d * (3 / 2)) ⟨s.now + d, s.lastApi⟩
       ⟨t.result, t.calls + 1, s.now :: t.callTimes, d :: t.entryDelays, t.state⟩) := by
  simp [geminiLoop, h]

theorem geminiLoop_malformed {o : Nat → GeminiOutcome} {a : Nat}
    (r : Nat) (d : ℚ) (s : ApiState) (h : o a = .malformed) :
    geminiLoop o a (r + 1) d s =
      (let t := geminiLoop o (a + 1) r (d * (3 / 2)) ⟨s.now + d, s.lastApi⟩
       ⟨t.result, t.calls + 1, s.now :: t.callTimes, d :: t.entryDelays, t.state⟩) := by
  simp [geminiLoop, h]

/-- With at least one attempt left, the delay on entry to the first executed
attempt is the delay the loop was entered with. -/
theorem cerebrasLoop_entryDelays_head (o : Nat → CerebrasOutcome) (a r : Nat) (d : ℚ)
    (s : ApiState) : ∃ rest, (cerebrasLoop o a (r + 1) d s).entryDelays = d :: rest := by
  cases h : o a with
  | ok items => exact ⟨[], by rw [cerebrasLoop_ok r d s h]⟩
  | emptyChoices =>
      exact ⟨_, by rw [cerebrasLoop_emptyChoices r d s h]⟩
  | malformed => exact ⟨[], by rw [cerebrasLoop_malformed r d s h]⟩
  | exn hint => exact ⟨_, by rw [cerebrasLoop_exn r d s h]⟩

/-- Same head fact for the Gemini loop. -/
theorem geminiLoop_entryDelays_head (o : Nat → GeminiOutcome) (a r : Nat) (d : ℚ)
    (s : ApiState) : ∃ rest, (geminiLoop o a (r + 1) d s).entryDelays = d :: rest := by
  cases h : o a with
  | ok items => exact ⟨[], by rw [geminiLoop_ok r d s h]⟩
  | http429 header => exact ⟨_, by rw [geminiLoop_http429 r d s h]⟩
  | transientErr hint => exact ⟨_, by rw [geminiLoop_transient r d s h]⟩
  | malformed => exact ⟨_, by rw [geminiLoop_malformed r d s h]⟩

/-- A Gemini loop whose every remaining attempt sees a malformed body retries
through all of them and ends with the final `TranslationError`. -/
theorem geminiLoop_all_malformed (o : Nat → GeminiOutcome) :
    ∀ (r a : Nat) (d : ℚ) (s : ApiState),
      (∀ i, i < r → o (a + i) = GeminiOutcome.malformed) →
      (geminiLoop o a r d s).result = Except.error () ∧ (geminiLoop o a r d s).calls = r := by
  intro r
  induction r with
  | zero => intro a d s _; exact ⟨rfl, rfl⟩
  | succ r ih =>
      intro a d s h
      have h0 : o a = GeminiOutcome.malformed := by simpa using h 0 (by omega)
      rw [geminiLoop_malformed r d s h0]
      obtain ⟨h1, h2⟩ := ih (a + 1) (d * (3 / 2)) ⟨s.now + d, s.lastApi⟩ (fun i hi => by
        rw [show a + 1 + i = a + (i + 1) from by omega]
        exact h (i + 1) (by omega))
      refine ⟨h1, ?_⟩
      show (geminiLoop o (a + 1) r (d * (3 / 2)) ⟨s.now + d, s.lastApi⟩).calls + 1 = r + 1
      rw [h2]

/-- Claim C4 counterexample.  Concrete input: a Gemini batch whose provider
call succeeds on every attempt but returns a body `json.loads` rejects.  The
claim says the provider is invoked exactly once; `GeminiTranslator` instead
retries the malformed response and performs all three attempts. -/
theorem claim_C4_counterexample :
    (geminiRun (fun _ => GeminiOutcome.malformed) ⟨0, 0⟩).calls = 3 ∧
    (geminiRun (fun _ => GeminiOutcome.malformed) ⟨0, 0⟩).result = Except.error () ∧
    (3 : Nat) ≠ 1 :=
  ⟨rfl, rfl, by decide⟩

/-- Claim C4, amended: for `CerebrasTranslator` a malformed-response failure
(successful call, body that fails `json.loads`) aborts `translate_batch`
immediately with a `TranslationError` after exactly one provider invocation
from that point; for `GeminiTranslator` a malformed response is handled like
a transient failure and retried, so with all bodies malformed the provider is
invoked once per remaining attempt — `MAX_RETRIES` (3) times for a full run —
before the final `TranslationError`. -/
theorem claim_C4_amended :
    (∀ (o : Nat → CerebrasOutcome) (a r : Nat) (d : ℚ) (s : ApiState),
        o a = CerebrasOutcome.malformed →
        (cerebrasLoop o a (r + 1) d s).result = Except.error () ∧
          (cerebrasLoop o a (r + 1) d s).calls = 1)
    ∧ (∀ (o : Nat → CerebrasOutcome) (s : ApiState), o 0 = CerebrasOutcome.malformed →
        (cerebrasRun o s).result = Except.error () ∧ (cerebrasRun o s).calls = 1)
    ∧ (∀ (o : Nat → GeminiOutcome) (r a : Nat) (d : ℚ) (s : ApiState),
        (∀ i, i < r → o (a + i) = GeminiOutcome.malformed) →
        (geminiLoop o a r d s).result = Except.error () ∧ (geminiLoop o a r d s).calls = r)
    ∧ (∀ (o : Nat → GeminiOutcome) (s : ApiState),
        (∀ i, i < MAX_RETRIES → o i = GeminiOutcome.malformed) →
        (geminiRun o s).result = Except.error () ∧ (geminiRun o s).calls = MAX_RETRIES) := by
  refine ⟨?_, ?_, ?_, ?_⟩
  · intro o a r d s h
    rw [cerebrasLoop_malformed r d s h]
    exact ⟨rfl, rfl⟩
  · intro o s h
    have e := cerebrasLoop_malformed 2 INITIAL_RETRY_DELAY_SECONDS s h
    constructor
    · show (cerebrasLoop o 0 (2 + 1) INITIAL_RETRY_DELAY_SECONDS s).result = Except.error ()
      rw [e]
    · show (cerebrasLoop o 0 (2 + 1) INITIAL_RETRY_DELAY_SECONDS s).calls = 1
      rw [e]
  · intro o r a d s h
    exact geminiLoop_all_malformed o r a d s h
  · intro o s h
    exact geminiLoop_all_malformed o MAX_RETRIES 0 INITIAL_RETRY_DELAY_SECONDS s
      (fun i hi => by simpa using h i hi)

/-- Witness for `claim_C4_amended` at concrete inputs: a constant malformed
oracle, the zero clock state, one attempt for Cerebras and three for
Gemini. -/
theorem claim_C4_witness :
    ((fun _ => CerebrasOutcome.malformed : Nat → CerebrasOutcome) 0 =
        CerebrasOutcome.malformed ∧
      (cerebrasRun (fun _ => CerebrasOutcome.malformed) ⟨0, 0⟩).result = Except.error () ∧
      (cerebrasRun (fun _ => CerebrasOutcome.malformed) ⟨0, 0⟩).calls = 1)
    ∧ ((∀ i, i < MAX_RETRIES →
          (fun _ => GeminiOutcome.malformed : Nat → GeminiOutcome) i =
            GeminiOutcome.malformed) ∧
      (geminiRun (fun _ => GeminiOutcome.malformed) ⟨0, 0⟩).result = Except.error () ∧
      (geminiRun (fun _ => GeminiOutcome.malformed) ⟨0, 0⟩).calls = MAX_RETRIES) := by
  have hc := claim_C4_amended.2.1 (fun _ => CerebrasOutcome.malformed) ⟨0, 0⟩ rfl
  have hg := claim_C4_amended.2.2.2 (fun _ => GeminiOutcome.malformed) ⟨0, 0⟩
    (fun _ _ => rfl)
  exact ⟨⟨rfl, hc.1, hc.2⟩, ⟨fun _ _ => rfl, hg.1, hg.2⟩⟩

/-- Claim C7 counterexample.  Concrete input: a Gemini batch rate-limited on
its first attempt (HTTP 429, Retry-After 10) with current delay d = 3.  The
claim says the delay in force at the next attempt is max(10, 3 × 1.5) = 10;
the code updates the delay before raising and multiplies again afterwards, so
the next attempt runs with delay 15. -/
theorem claim_C7_counterexample :
    (geminiRun
        (fun i => if i = 0 then GeminiOutcome.http429 (some (some 10)) else GeminiOutcome.ok [])
        ⟨0, 0⟩).entryDelays = [3, 15] ∧
    (15 : ℚ) ≠ maxQ 10 (3 * (3 / 2)) := by
  refine ⟨by with_unfolding_all rfl, by with_unfolding_all decide⟩

/-- Claim C7, amended.  On a transient failure at an attempt entered with
delay d, the delay in force at the next attempt is: for Cerebras,
max(h, d × 1.5) with a Retry-After hint h and d × 1.5 without one (as the
claim says); for Gemini, max(h, d × 1.5) × 1.5 after a 429 with parseable
Retry-After h, d × 1.5 × 1.5 after any other 429, and d × 1.5 after every
other transient or malformed-response failure (whose Retry-After hints are
never inspected). -/
theorem claim_C7_amended :
    (∀ (o : Nat → CerebrasOutcome) (a r : Nat) (d : ℚ) (s : ApiState) (q : ℚ),
        o a = CerebrasOutcome.exn (some q) →
        ∃ rest, (cerebrasLoop o a (r + 2) d s).entryDelays =
          d :: maxQ q (d * (3 / 2)) :: rest)
    ∧ (∀ (o : Nat → CerebrasOutcome) (a r : Nat) (d : ℚ) (s : ApiState),
        (o a = CerebrasOutcome.exn none ∨ o a = CerebrasOutcome.emptyChoices) →
        ∃ rest, (cerebrasLoop o a (r + 2) d s).entryDelays = d :: d * (3 / 2) :: rest)
    ∧ (∀ (o : Nat → GeminiOutcome) (a r : Nat) (d : ℚ) (s : ApiState) (q : ℚ),
        o a = GeminiOutcome.http429 (some (some q)) →
        ∃ rest, (geminiLoop o a (r + 2) d s).entryDelays =
          d :: (maxQ q (d * (3 / 2))) * (3 / 2) :: rest)
    ∧ (∀ (o : Nat → GeminiOutcome) (a r : Nat) (d : ℚ) (s : ApiState),
        (o a = GeminiOutcome.http429 (some none) ∨ o a = GeminiOutcome.http429 none) →
        ∃ rest, (geminiLoop o a (r + 2) d s).entryDelays =
          d :: d * (3 / 2) * (3 / 2) :: rest)
    ∧ (∀ (o : Nat → GeminiOutcome) (a r : Nat) (d : ℚ) (s : ApiState),
        ((∃ hint, o a = GeminiOutcome.transientErr hint) ∨ o a = GeminiOutcome.malformed) →
        ∃ rest, (geminiLoop o a (r + 2) d s).entryDelays = d :: d * (3 / 2) :: rest) := by
  refine ⟨?_, ?_, ?_, ?_, ?_⟩
  · intro o a r d s q h
    obtain ⟨rest, hr⟩ := cerebrasLoop_entryDelays_head o (a + 1) r (maxQ q (d * (3 / 2)))
      ⟨(respectRateLimit s).now + d, (respectRateLimit s).lastApi⟩
    refine ⟨rest, ?_⟩
    rw [show r + 2 = (r + 1) + 1 from rfl, cerebrasLoop_exn (r + 1) d s h]
    simpa using hr
  · intro o a r d s h
    obtain ⟨rest, hr⟩ := cerebrasLoop_entryDelays_head o (a + 1) r (d * (3 / 2))
      ⟨(respectRateLimit s).now + d, (respectRateLimit s).lastApi⟩
    refine ⟨rest, ?_⟩
    rcases h with h | h
    · rw [show r + 2 = (r + 1) + 1 from rfl, cerebrasLoop_exn (r + 1) d s h]
      simpa using hr
    · rw [show r + 2 = (r + 1) + 1 from rfl, cerebrasLoop_emptyChoices (r + 1) d s h]
      simpa using hr
  · intro o a r d s q h
    obtain ⟨rest, hr⟩ := geminiLoop_entryDelays_head o (a + 1) r ((maxQ q (d * (3 / 2))) * (3 / 2))
      ⟨s.now + maxQ q (d * (3 / 2)), s.lastApi⟩
    refine ⟨rest, ?_⟩
    rw [show r + 2 = (r + 1) + 1 from rfl, geminiLoop_http429 (r + 1) d s h]
    simpa using hr
  · intro o a r d s h
    obtain ⟨rest, hr⟩ := geminiLoop_entryDelays_head o (a + 1) r (d * (3 / 2) * (3 / 2))
      ⟨s.now + d * (3 / 2), s.lastApi⟩
    refine ⟨rest, ?_⟩
    rcases h with h | h
    · rw [show r + 2 = (r + 1) + 1 from rfl, geminiLoop_http429 (r + 1) d s h]
      simpa using hr
    · rw [show r + 2 = (r + 1) + 1 from rfl, geminiLoop_http429 (r + 1) d s h]
      simpa using hr
  · intro o a r d s h
    obtain ⟨rest, hr⟩ := geminiLoop_entryDelays_head o (a + 1) r (d * (3 / 2))
      ⟨s.now + d, s.lastApi⟩
    refine ⟨rest, ?_⟩
    rcases h with ⟨hint, h⟩ | h
    · rw [show r + 2 = (r + 1) + 1 from rfl, geminiLoop_transient (r + 1) d s h]
      simpa using hr
    · rw [show r + 2 = (r + 1) + 1 from rfl, geminiLoop_malformed (r + 1) d s h]
      simpa using hr

/-- Witness for `claim_C7_amended`: each of the five failure shapes at a
concrete oracle, zero clock state and the initial delay 3. -/
theorem claim_C7_witness :
    ((fun _ => CerebrasOutcome.exn (some 10) : Nat → CerebrasOutcome) 0 =
        CerebrasOutcome.exn (some 10) ∧
      ∃ rest, (cerebrasLoop (fun _ => CerebrasOutcome.exn (some 10)) 0 (1 + 2) 3 ⟨0, 0⟩).entryDelays =
        3 :: maxQ 10 (3 * (3 / 2)) :: rest)
    ∧ (∃ rest, (cerebrasLoop (fun _ => CerebrasOutcome.exn none) 0 (1 + 2) 3 ⟨0, 0⟩).entryDelays =
        3 :: 3 * (3 / 2) :: rest)
    ∧ (∃ rest, (geminiLoop (fun _ => GeminiOutcome.http429 (some (some 10))) 0 (1 + 2) 3 ⟨0, 0⟩).entryDelays =
        3 :: (maxQ 10 (3 * (3 / 2))) * (3 / 2) :: rest)
    ∧ (∃ rest, (geminiLoop (fun _ => GeminiOutcome.http429 none) 0 (1 + 2) 3 ⟨0, 0⟩).entryDelays =
        3 :: 3 * (3 / 2) * (3 / 2) :: rest)
    ∧ (∃ rest, (geminiLoop (fun _ => GeminiOutcome.malformed) 0 (1 + 2) 3 ⟨0, 0⟩).entryDelays =
        3 :: 3 * (3 / 2) :: rest) := by
  refine ⟨⟨rfl, ?_⟩, ?_, ?_, ?_, ?_⟩
  · exact claim_C7_amended.1 (fun _ => CerebrasOutcome.exn (some 10)) 0 1 3 ⟨0, 0⟩ 10 rfl
  · exact claim_C7_amended.2.1 (fun _ => CerebrasOutcome.exn none) 0 1 3 ⟨0, 0⟩ (Or.inl rfl)
  · exact claim_C7_amended.2.2.1 (fun _ => GeminiOutcome.http429 (some (some 10))) 0 1 3 ⟨0, 0⟩ 10 rfl
  · exact claim_C7_amended.2.2.2.1 (fun _ => GeminiOutcome.http429 none) 0 1 3 ⟨0, 0⟩ (Or.inr rfl)
  · exact claim_C7_amended.2.2.2.2 (fun _ => GeminiOutcome.malformed) 0 1 3 ⟨0, 0⟩ (Or.inr rfl)

/-! ## The rate-limit gate (claim C5) -/

/-- Minimum-separation relation between two successive call instants. -/
def sepRel (a b : ℚ) : Prop :=
  a + MIN_SECONDS_BETWEEN_CALLS ≤ b

/-- Passing the gate: the new reading is at least the previous recorded call
plus the minimum interval, and it becomes the recorded call. -/
theorem respectRateLimit_sep (s : ApiState) :
    s.lastApi + MIN_SECONDS_BETWEEN_CALLS ≤ (respectRateLimit s).now ∧
      (respectRateLimit s).lastApi = (respectRateLimit s).now := by
  simp only [respectRateLimit]
  split
  · constructor
    · simp only []
      linarith
    · rfl
  · rename_i h
    constructor
    · simp only []
      linarith [not_lt.mp h]
    · rfl

/-- Every Cerebras attempt passes the gate, so the recorded previous call and
all the call instants of a loop form a 1.2 s-separated chain whose last
element is the recorded call the loop leaves behind. -/
theorem cerebrasLoop_chain (o : Nat → CerebrasOutcome) :
    ∀ (r a : Nat) (d : ℚ) (s : ApiState),
      List.Chain' sepRel (s.lastApi :: (cerebrasLoop o a r d s).callTimes) ∧
        (s.lastApi :: (cerebrasLoop o a r d s).callTimes).getLast? =
          some ((cerebrasLoop o a r d s).state.lastApi) := by
  intro r
  induction r with
  | zero => intro a d s; simp [cerebrasLoop]
  | succ r ih =>
      intro a d s
      obtain ⟨hsep, hrec⟩ := respectRateLimit_sep s
      cases h : o a with
      | ok items =>
          rw [cerebrasLoop_ok r d s h]
          refine ⟨List.chain'_cons.mpr ⟨hsep, List.chain'_singleton _⟩, ?_⟩
          simp [hrec]
      | malformed =>
          rw [cerebrasLoop_malformed r d s h]
          refine ⟨List.chain'_cons.mpr ⟨hsep, List.chain'_singleton _⟩, ?_⟩
          simp [hrec]
      | emptyChoices =>
          rw [cerebrasLoop_emptyChoices r d s h]
          obtain ⟨ihc, ihl⟩ := ih (a + 1) (d * (3 / 2))
            ⟨(respectRateLimit s).now + d, (respectRateLimit s).lastApi⟩
          refine ⟨List.chain'_cons.mpr ⟨hsep, ?_⟩, ?_⟩
          · simpa [hrec] using ihc
          · simpa [hrec] using ihl
      | exn hint =>
          rw [cerebrasLoop_exn r d s h]
          obtain ⟨ihc, ihl⟩ := ih (a + 1)
            (match hint with | some q => maxQ q (d * (3 / 2)) | none => d * (3 / 2))
            ⟨(respectRateLimit s).now + d, (respectRateLimit s).lastApi⟩
          refine ⟨List.chain'_cons.mpr ⟨hsep, ?_⟩, ?_⟩
          · simpa [hrec] using ihc
          · simpa [hrec] using ihl

/-- The Gemini loop never touches the shared `_last_api_call`. -/
theorem geminiLoop_lastApi (o : Nat → GeminiOutcome) :
    ∀ (r a : Nat) (d : ℚ) (s : ApiState),
      (geminiLoop o a r d s).state.lastApi = s.lastApi := by
  intro r
  induction r with
  | zero => intro a d s; rfl
  | succ r ih =>
      intro a d s
      cases h : o a with
      | ok items => rw [geminiLoop_ok r d s h]
      | http429 header =>
          rw [geminiLoop_http429 r d s h]
          exact ih (a + 1) _ _
      | transientErr hint =>
          rw [geminiLoop_transient r d s h]
          exact ih (a + 1) _ _
      | malformed =>
          rw [geminiLoop_malformed r d s h]
          exact ih (a + 1) _ _

/-- Claim C5 counterexample.  Concrete input: two sequential Gemini batches,
each succeeding on its first attempt, starting from the zero clock state.
Both provider calls are issued at time 0 — the second does not start
`MIN_SECONDS_BETWEEN_CALLS` after the first, because
`GeminiTranslator.translate_batch` never calls `_respect_rate_limit`. -/
theorem claim_C5_counterexample :
    (geminiRun (fun _ => GeminiOutcome.ok []) ⟨0, 0⟩).callTimes = [0] ∧
    (geminiRun (fun _ => GeminiOutcome.ok [])
        ((geminiRun (fun _ => GeminiOutcome.ok []) ⟨0, 0⟩).state)).callTimes = [0] ∧
    ¬ ((0 : ℚ) + MIN_SECONDS_BETWEEN_CALLS ≤ 0) := by
  refine ⟨rfl, rfl, by with_unfolding_all decide⟩

/-- Claim C5, amended.  In the timed model, calls that pass the shared gate —
i.e. every `CerebrasTranslator` provider call — are pairwise separated by at
least `MIN_SECONDS_BETWEEN_CALLS`: across two sequential `translate_batch`
runs sharing the gate state (the lock serialises concurrent acquisitions),
the previously recorded call and all call instants form a 1.2 s-separated
chain.  `GeminiTranslator` issues its HTTP calls without the gate and never
updates the shared `_last_api_call`, so no minimum separation is enforced for
it (see the counterexample). -/
theorem claim_C5_amended :
    (∀ (o₁ o₂ : Nat → CerebrasOutcome) (s : ApiState),
        List.Chain' sepRel
          (s.lastApi :: ((cerebrasRun o₁ s).callTimes ++
            (cerebrasRun o₂ (cerebrasRun o₁ s).state).callTimes)))
    ∧ (∀ (o : Nat → GeminiOutcome) (s : ApiState),
        (geminiRun o s).state.lastApi = s.lastApi) := by
  constructor
  · intro o₁ o₂ s
    simp only [cerebrasRun]
    obtain ⟨c₁, l₁⟩ := cerebrasLoop_chain o₁ MAX_RETRIES 0 INITIAL_RETRY_DELAY_SECONDS s
    obtain ⟨c₂, l₂⟩ := cerebrasLoop_chain o₂ MAX_RETRIES 0 INITIAL_RETRY_DELAY_SECONDS
      (cerebrasLoop o₁ 0 MAX_RETRIES INITIAL_RETRY_DELAY_SECONDS s).state
    rw [← List.cons_append]
    refine List.chain'_append.mpr ⟨c₁, (List.chain'_cons'.mp c₂).2, ?_⟩
    intro x hx y hy
    rw [l₁] at hx
    simp only [Option.mem_def, Option.some.injEq] at hx
    subst hx
    exact (List.chain'_cons'.mp c₂).1 y hy
  · intro o s
    exact geminiLoop_lastApi o MAX_RETRIES 0 INITIAL_RETRY_DELAY_SECONDS s

/-! ## Claim C9: context trimming -/

/-- When every entry has a truthy text, the clean pass keeps all of them and
only fills in the defaults. -/
theorem cleanEntries_eq_map (now : ℚ) :
    ∀ entries : List ContextEntryIn, (∀ e ∈ entries, e.kr ≠ "" ∨ e.en ≠ "") →
      cleanEntries now entries =
        entries.map (fun e => (⟨e.kr, e.en, e.timestamp.getD now⟩ : StoredEntry)) := by
  intro entries
  induction entries with
  | nil => intro _; rfl
  | cons e rest ih =>
      intro h
      have he : ¬ (e.kr = "" ∧ e.en = "") := by
        rcases h e (by simp) with h' | h' <;> tauto
      simp only [cleanEntries, List.filterMap_cons, if_neg he, List.map_cons]
      exact congrArg (List.cons _) (ih (fun x hx => h x (by simp [hx])))

/-- Claim C9: appending 250 context entries, each with non-empty source or
target text, to one conversation of a store with `max_entries = 200` leaves
exactly the 200 most recently appended entries, in their original append
order (the oldest 50 are discarded). -/
theorem claim_C9 (entries : List ContextEntryIn) (now : ℚ) (cid : String)
    (h1 : entries.length = 250) (h2 : ∀ e ∈ entries, e.kr ≠ "" ∨ e.en ≠ "")
    (h3 : cid ≠ "") :
    (storeAppend 200 [] cid entries now).lookup cid =
      some ((entries.map (fun e => (⟨e.kr, e.en, e.timestamp.getD now⟩ : StoredEntry))).drop 50) := by
  have hne : entries ≠ [] := by
    intro h
    rw [h] at h1
    simp at h1
  have hclean := cleanEntries_eq_map now entries h2
  have hlen : (entries.map (fun e => (⟨e.kr, e.en, e.timestamp.getD now⟩ : StoredEntry))).length = 250 := by
    rw [List.length_map, h1]
  have hmne : entries.map (fun e => (⟨e.kr, e.en, e.timestamp.getD now⟩ : StoredEntry)) ≠ [] := by
    intro h
    rw [h] at hlen
    simp at hlen
  simp only [storeAppend, hclean]
  rw [if_neg (by simp [h3, hne]), if_neg hmne]
  simp only [List.lookup_nil, Option.getD_none, List.nil_append, hlen]
  rw [if_pos (by omega), show (250 : Nat) - 200 = 50 from rfl]
  simp [storeSet, List.lookup]

set_option maxRecDepth 8000

/-- Witness for `claim_C9`: 250 copies of the entry `{kr := "k"}` appended to
conversation `c` of an empty store. -/
theorem claim_C9_witness :
    ((List.replicate 250 (⟨"k", "", none⟩ : ContextEntryIn)).length = 250
      ∧ (∀ e ∈ List.replicate 250 (⟨"k", "", none⟩ : ContextEntryIn), e.kr ≠ "" ∨ e.en ≠ "")
      ∧ ("c" : String) ≠ "")
    ∧ (storeAppend 200 [] ("c") (List.replicate 250 (⟨"k", "", none⟩ : ContextEntryIn)) 0).lookup ("c") =
      some (((List.replicate 250 (⟨"k", "", none⟩ : ContextEntryIn)).map
        (fun e => (⟨e.kr, e.en, e.timestamp.getD 0⟩ : StoredEntry))).drop 50) := by
  refine ⟨⟨by decide, by decide, by decide⟩, ?_⟩
  exact claim_C9 (List.replicate 250 ⟨"k", "", none⟩) 0 ("c") (by decide) (by decide) (by decide)

/-! ## Claim C6: the neighbour radius -/

/-- Formalisation of claim C6 following its words: the radius is 1.4 times
the median of the words' bounding-box heights, *each height being `y1 − y0`
of the box enclosing the word's polygon*, with the default `20 × 1.4` for an
empty input. -/
def claimRadiusRaw (words : List OCRWord) : ℚ :=
  let heights := (words.map (fun w => polygonToBox w.poly)).map (fun b => b.2.2.2 - b.2.1)
  let heightMed := if heights = [] then 20 else medianQ heights
  heightMed * (14 / 10)

/-- Claim C6 amended to what the code computes: each height is clamped below
by one pixel, `max(1.0, y1 − y0)` (grouping.py `_box_height`). -/
def claimRadiusClamped (words : List OCRWord) : ℚ :=
  let heights := (words.map (fun w => polygonToBox w.poly)).map (fun b => maxQ 1 (b.2.2.2 - b.2.1))
  let heightMed := if heights = [] then 20 else medianQ heights
  heightMed * (14 / 10)

/-- Claim C6 counterexample.  Concrete input: one word whose box is only half
a pixel tall.  `group_words` uses radius `1.4 × max(1, 0.5) = 1.4`, while the
claim's formula `1.4 × median(y1 − y0)` gives `0.7`. -/
theorem claim_C6_counterexample :
    groupRadius [⟨"a", [(0, 0), (1, 0), (1, 1 / 2), (0, 1 / 2)]⟩] = 7 / 5 ∧
    claimRadiusRaw [⟨"a", [(0, 0), (1, 0), (1, 1 / 2), (0, 1 / 2)]⟩] = 7 / 10 ∧
    (7 / 5 : ℚ) ≠ 7 / 10 := by
  refine ⟨by with_unfolding_all rfl, by with_unfolding_all rfl, by with_unfolding_all decide⟩

/-- Claim C6, amended: the neighbour-adjacency radius used by `group_words`
equals 1.4 times the median of the words' *clamped* bounding-box heights,
each height being `max(1, y1 − y0)`; the `20 × 1.4` default applies to the
empty height list (which `group_words` itself never reaches, returning `[]`
early). -/
theorem claim_C6_amended :
    ∀ words : List OCRWord,
      groupRadius words = claimRadiusClamped words ∧
      (words = [] → groupRadius words = 20 * (14 / 10)) := by
  intro words
  constructor
  · rfl
  · intro h
    rw [h]
    rfl

/-- Witness for `claim_C6_amended` at the empty list and at a one-word
input. -/
theorem claim_C6_witness :
    (groupRadius [] = 20 * (14 / 10)) ∧
    (groupRadius [⟨"a", [(0, 0), (1, 0), (1, 1 / 2), (0, 1 / 2)]⟩] =
      claimRadiusClamped [⟨"a", [(0, 0), (1, 0), (1, 1 / 2), (0, 1 / 2)]⟩]) :=
  ⟨(claim_C6_amended []).2 rfl, (claim_C6_amended [⟨"a", [(0, 0), (1, 0), (1, 1 / 2), (0, 1 / 2)]⟩]).1⟩

/-! ## Claim C3: the batch planner -/

theorem serializedSize_singleton (e : PayloadEntry) :
    serializedSize [e] = 12 + entrySize e := by
  simp [serializedSize]

theorem serializedSize_append (l : List PayloadEntry) (e : PayloadEntry) (h : l ≠ []) :
    serializedSize (l ++ [e]) = serializedSize l + 1 + entrySize e := by
  have hl : 1 ≤ l.length := List.length_pos.mpr h
  simp only [serializedSize, List.map_append, List.sum_append, List.length_append,
    List.map_cons, List.map_nil, List.sum_cons, List.sum_nil, List.length_cons,
    List.length_nil]
  omega

/-- Joint loop invariant of `_batched_groups`: the payload accumulator mirrors
the group accumulator, the running size is the serialized size, the item cap
holds, and the size cap holds as soon as two items are present.  Under it,
the emitted batches concatenate back to the input (groups and payloads) and
each satisfies the caps. -/
theorem batchedAux_spec :
    ∀ (rest curG : List WordGroup) (curP : List PayloadEntry) (curSize : Nat),
      curP = curG.map payloadOf →
      curSize = serializedSize curP →
      curP.length ≤ MAX_ITEMS_PER_REQUEST →
      (2 ≤ curP.length → curSize ≤ MAX_JSON_CHARS_PER_REQUEST) →
      ((batchedAux rest curG curP curSize).flatMap (fun b => b.1) = curG ++ rest)
      ∧ ((batchedAux rest curG curP curSize).flatMap (fun b => b.2) =
          curP ++ rest.map payloadOf)
      ∧ (∀ b ∈ batchedAux rest curG curP curSize,
          b.2 = b.1.map payloadOf ∧ b.1.length ≤ MAX_ITEMS_PER_REQUEST ∧ b.2 ≠ [] ∧
          (b.2.length ≠ 1 → serializedSize b.2 ≤ MAX_JSON_CHARS_PER_REQUEST)) := by
  intro rest
  induction rest with
  | nil =>
      intro curG curP curSize hmap hsize hlen hbound
      by_cases hP : curP = []
      · have hG : curG = [] := by
          rw [hP] at hmap
          exact (List.map_eq_nil_iff.mp hmap.symm)
        subst hG
        simp [batchedAux, hP]
      · simp only [batchedAux, if_neg hP]
        refine ⟨by simp, by simp, ?_⟩
        intro b hb
        simp only [List.mem_singleton] at hb
        subst hb
        refine ⟨hmap, ?_, hP, ?_⟩
        · show curG.length ≤ MAX_ITEMS_PER_REQUEST
          have hh : curP.length = curG.length := by rw [hmap, List.length_map]
          omega
        · intro hne1
          have hne1' : curP.length ≠ 1 := hne1
          have h0 : 0 < curP.length := List.length_pos.mpr hP
          have hb2 := hbound (by omega)
          show serializedSize curP ≤ MAX_JSON_CHARS_PER_REQUEST
          omega
  | cons g rest ih =>
      intro curG curP curSize hmap hsize hlen hbound
      by_cases hP : curP = []
      · have hG : curG = [] := by
          rw [hP] at hmap
          exact (List.map_eq_nil_iff.mp hmap.symm)
        subst hG
        subst hP
        have hsz : curSize + entrySize (payloadOf g) = serializedSize [payloadOf g] := by
          rw [serializedSize_singleton, hsize]
          rfl
        have heq : batchedAux (g :: rest) [] [] curSize =
            batchedAux rest [g] [payloadOf g] (serializedSize [payloadOf g]) := by
          rw [← hsz]
          simp [batchedAux]
        rw [heq]
        obtain ⟨f1, f2, f3⟩ := ih [g] [payloadOf g] (serializedSize [payloadOf g]) (by simp) rfl
          (by simp [MAX_ITEMS_PER_REQUEST]) (by intro h; simp at h)
        exact ⟨by simpa using f1, by simpa using f2, f3⟩
      · by_cases hc : MAX_ITEMS_PER_REQUEST ≤ curP.length ∨
            MAX_JSON_CHARS_PER_REQUEST < curSize + 1 + entrySize (payloadOf g)
        · have heq : batchedAux (g :: rest) curG curP curSize =
              (curG, curP) :: batchedAux rest [g] [payloadOf g]
                (serializedSize [payloadOf g]) := by
            rw [serializedSize_singleton]
            simp [batchedAux, hP, hc]
          rw [heq]
          obtain ⟨f1, f2, f3⟩ := ih [g] [payloadOf g] (serializedSize [payloadOf g]) (by simp)
            rfl (by simp [MAX_ITEMS_PER_REQUEST]) (by intro h; simp at h)
          refine ⟨?_, ?_, ?_⟩
          · simp only [List.flatMap_cons, f1]
            simp
          · simp only [List.flatMap_cons, f2]
            simp
          · intro b hb
            rcases List.mem_cons.mp hb with hb | hb
            · subst hb
              refine ⟨hmap, ?_, hP, ?_⟩
              · show curG.length ≤ MAX_ITEMS_PER_REQUEST
                have hh : curP.length = curG.length := by rw [hmap, List.length_map]
                omega
              · intro hne1
                have hne1' : curP.length ≠ 1 := hne1
                have h0 : 0 < curP.length := List.length_pos.mpr hP
                have hb2 := hbound (by omega)
                show serializedSize curP ≤ MAX_JSON_CHARS_PER_REQUEST
                omega
            · exact f3 b hb
        · have heq : batchedAux (g :: rest) curG curP curSize =
              batchedAux rest (curG ++ [g]) (curP ++ [payloadOf g])
                (curSize + 1 + entrySize (payloadOf g)) := by
            simp [batchedAux, hP, hc]
          rw [heq]
          push_neg at hc
          obtain ⟨hclen, hcsize⟩ := hc
          obtain ⟨f1, f2, f3⟩ := ih (curG ++ [g]) (curP ++ [payloadOf g])
            (curSize + 1 + entrySize (payloadOf g))
            (by rw [hmap, List.map_append, List.map_cons, List.map_nil])
            (by rw [serializedSize_append curP _ hP, hsize])
            (by simp only [List.length_append, List.length_cons, List.length_nil]; omega)
            (fun _ => by omega)
          refine ⟨?_, ?_, f3⟩
          · rw [f1]
            simp
          · rw [f2]
            simp

/-- Claim C3: for every ordered group sequence, concatenating the batches
emitted by `_batched_groups` reproduces the input groups exactly (and the
payload concatenation is exactly the input's serialized entries, in order);
every batch holds at most `MAX_ITEMS_PER_REQUEST` items; and no batch's
serialized payload size exceeds `MAX_JSON_CHARS_PER_REQUEST` unless the batch
contains exactly one item. -/
theorem claim_C3 (groups : List WordGroup) :
    ((batchedGroups groups).flatMap (fun b => b.1) = groups)
    ∧ ((batchedGroups groups).flatMap (fun b => b.2) = groups.map payloadOf)
    ∧ (∀ b ∈ batchedGroups groups,
        b.1.length ≤ MAX_ITEMS_PER_REQUEST ∧
        (b.1.length ≠ 1 → serializedSize b.2 ≤ MAX_JSON_CHARS_PER_REQUEST)) := by
  obtain ⟨f1, f2, f3⟩ := batchedAux_spec groups [] [] 12 rfl rfl
    (by simp [MAX_ITEMS_PER_REQUEST]) (by intro h; simp at h)
  refine ⟨by simpa using f1, by simpa using f2, ?_⟩
  intro b hb
  obtain ⟨hbm, hblen, _, hbsize⟩ := f3 b hb
  refine ⟨hblen, ?_⟩
  intro hne1
  apply hbsize
  rw [hbm, List.length_map]
  exact hne1

/-! ## Claims C1 and C10: the orchestrator -/

theorem flatMap_congr_perm {α β : Type} (f g : α → List β) (l : List α)
    (h : ∀ a, (f a).Perm (g a)) : (l.flatMap f).Perm (l.flatMap g) := by
  induction l with
  | nil => exact List.Perm.refl _
  | cons x xs ih => simpa [List.flatMap_cons] using (h x).append ih

/-- The items stored across a column accumulator list. -/
def colItems (cols : List ColumnAcc) : List AnnotatedGroup :=
  cols.flatMap (fun c => c.items)

theorem placeItem_items_perm (item : AnnotatedGroup) :
    ∀ cols : List ColumnAcc, (colItems (placeItem cols item)).Perm (item :: colItems cols) := by
  intro cols
  induction cols with
  | nil => simp [placeItem, colItems, colUpdate]
  | cons c cs ih =>
      by_cases h : absQ (item.xCenter - c.xCenter) ≤ c.tolerance
      · rw [placeItem, if_pos h]
        simp only [colItems, List.flatMap_cons, colUpdate]
        refine List.Perm.trans ?_ List.perm_middle
        simp [List.append_assoc]
      · rw [placeItem, if_neg h]
        simp only [colItems, List.flatMap_cons]
        refine List.Perm.trans ((List.Perm.refl c.items).append ih) List.perm_middle

theorem foldl_placeItem_perm :
    ∀ (items : List AnnotatedGroup) (cols : List ColumnAcc),
      (colItems (items.foldl placeItem cols)).Perm (colItems cols ++ items) := by
  intro items
  induction items with
  | nil => intro cols; simp
  | cons x xs ih =>
      intro cols
      refine ((ih (placeItem cols x)).trans ?_)
      refine ((placeItem_items_perm x cols).append_right xs).trans ?_
      exact List.perm_middle.symm

/-- `_order_groups_left_to_right` returns a permutation of its input: every
annotated group lands in exactly one column and the sorting passes only
reorder. -/
theorem orderGroupsLeftToRight_perm (groups : List WordGroup) :
    (orderGroupsLeftToRight groups).Perm groups := by
  by_cases hg : groups = []
  · subst hg
    exact List.Perm.refl _
  · have hne : ((groups.map annotate).isEmpty = true) = False := by
      simp [List.isEmpty_iff, hg]
    simp only [orderGroupsLeftToRight, hne, if_false]
    have h1 : ((stableSort (fun a b => decide (a.xCenter ≤ b.xCenter))
        (((stableSort (fun a b => decide (a.xCenter ≤ b.xCenter)) (groups.map annotate)).foldl
          placeItem []))).flatMap
        (fun c => ((stableSort (fun a b => decide (a.yCenter ≤ b.yCenter)) c.items).map
          (fun a => a.group)))).Perm
        ((stableSort (fun a b => decide (a.xCenter ≤ b.xCenter))
          (((stableSort (fun a b => decide (a.xCenter ≤ b.xCenter)) (groups.map annotate)).foldl
            placeItem []))).flatMap (fun c => c.items.map (fun a => a.group))) :=
      flatMap_congr_perm _ _ _ (fun c => ((stableSort_perm _ c.items).map _))
    refine h1.trans ?_
    have h2 : ∀ cols : List ColumnAcc,
        cols.flatMap (fun c => c.items.map (fun a => a.group)) =
          (colItems cols).map (fun a => a.group) := by
      intro cols
      rw [colItems, List.map_flatMap]
    rw [h2]
    have h3 : (colItems (stableSort (fun a b => decide (a.xCenter ≤ b.xCenter))
        (((stableSort (fun a b => decide (a.xCenter ≤ b.xCenter)) (groups.map annotate)).foldl
          placeItem [])))).Perm
        (colItems (((stableSort (fun a b => decide (a.xCenter ≤ b.xCenter))
          (groups.map annotate)).foldl placeItem []))) := by
      unfold colItems
      exact ((stableSort_perm _ _).map _).flatten
    refine (h3.map _).trans ?_
    have h4 := foldl_placeItem_perm
      (stableSort (fun a b => decide (a.xCenter ≤ b.xCenter)) (groups.map annotate)) []
    have h5 : (colItems (((stableSort (fun a b => decide (a.xCenter ≤ b.xCenter))
        (groups.map annotate)).foldl placeItem []))).Perm (groups.map annotate) := by
      refine (h4.trans ?_)
      simpa [colItems] using stableSort_perm (fun a b => decide (a.xCenter ≤ b.xCenter))
        (groups.map annotate)
    refine (h5.map _).trans ?_
    rw [List.map_map]
    have : ((fun a : AnnotatedGroup => a.group) ∘ annotate) = id := rfl
    rw [this, List.map_id]

theorem dinsert_of_not_mem (d : List (String × String)) (k v : String)
    (h : k ∉ d.map Prod.fst) : dinsert d k v = d ++ [(k, v)] := by
  simp [dinsert, h]

/-- Folding dict assignments whose keys are all fresh just appends the
pairs. -/
theorem foldl_dinsert_fresh :
    ∀ (pairs acc : List (String × String)),
      ((acc.map Prod.fst) ++ (pairs.map Prod.fst)).Nodup →
      pairs.foldl (fun a p => dinsert a p.1 p.2) acc = acc ++ pairs := by
  intro pairs
  induction pairs with
  | nil => intro acc _; simp
  | cons kv rest ih =>
      intro acc h
      have hk : kv.1 ∉ acc.map Prod.fst := by
        have hd := (List.nodup_append.mp h).2.2
        intro hmem
        exact hd hmem (by simp)
      have hstep : dinsert acc kv.1 kv.2 = acc ++ [kv] := by
        rw [dinsert_of_not_mem acc kv.1 kv.2 hk]
      have hnd : (((acc ++ [kv]).map Prod.fst) ++ (rest.map Prod.fst)).Nodup := by
        simpa [List.append_assoc] using h
      calc (kv :: rest).foldl (fun a p => dinsert a p.1 p.2) acc
        = rest.foldl (fun a p => dinsert a p.1 p.2) (dinsert acc kv.1 kv.2) := rfl
      _ = rest.foldl (fun a p => dinsert a p.1 p.2) (acc ++ [kv]) := by rw [hstep]
      _ = (acc ++ [kv]) ++ rest := ih (acc ++ [kv]) hnd
      _ = acc ++ kv :: rest := by simp

/-- In an association list with pairwise-distinct keys, `lookup` returns the
value of the unique pair carrying the key. -/
theorem lookup_eq_of_mem_of_nodup :
    ∀ (l : List (String × String)) (k v : String),
      (l.map Prod.fst).Nodup → (k, v) ∈ l → l.lookup k = some v := by
  intro l
  induction l with
  | nil => intro k v _ hm; simp at hm
  | cons p rest ih =>
      intro k v hnd hm
      obtain ⟨k', v'⟩ := p
      simp only [List.map_cons] at hnd
      rcases List.mem_cons.mp hm with hm | hm
      · rw [Prod.mk.injEq] at hm
        obtain ⟨rfl, rfl⟩ := hm
        simp [List.lookup]
      · have hk : k ≠ k' := by
          intro hkp
          have hknotin : k' ∉ rest.map Prod.fst := (List.nodup_cons.mp hnd).1
          exact hknotin (by
            rw [← hkp]
            exact List.mem_map.mpr ⟨(k, v), hm, rfl⟩)
        have hbeq : (k == k') = false := beq_eq_false_iff_ne.mpr hk
        simp only [List.lookup, hbeq]
        exact ih k v (List.nodup_cons.mp hnd).2 hm

theorem translateValue_of_lookup_none (tr : List (String × String)) (g : WordGroup)
    (h : tr.lookup g.id = none) : translateValue tr g = g.kr_text := by
  simp [translateValue, h]

theorem translateValue_of_lookup_empty (tr : List (String × String)) (g : WordGroup)
    (h : tr.lookup g.id = some ("")) : translateValue tr g = g.kr_text := by
  simp [translateValue, h]

/-- The pairs `translate_groups_kr_to_en` writes into its dict, in write
order: one per group of each emitted batch. -/
def batchAssignments (behav : Nat → Except Unit (List (String × String)))
    (groups : List WordGroup) : List (String × String) :=
  ((batchedGroups (orderGroupsLeftToRight groups)).enum).flatMap
    (fun p => p.2.1.map (fun g => (g.id, translateValue (translationsOf behav p.1) g)))

theorem foldl_flatMap {α β γ : Type} (f : α → List β) (step : γ → β → γ)
    (l : List α) (init : γ) :
    (l.flatMap f).foldl step init = l.foldl (fun acc x => (f x).foldl step acc) init := by
  induction l generalizing init with
  | nil => rfl
  | cons x xs ih => simp [List.flatMap_cons, List.foldl_append, ih]

theorem translate_eq_foldl (behav : Nat → Except Unit (List (String × String)))
    (groups : List WordGroup) :
    translate_groups_kr_to_en behav groups =
      (batchAssignments behav groups).foldl (fun a p => dinsert a p.1 p.2) [] := by
  unfold translate_groups_kr_to_en batchAssignments
  rw [foldl_flatMap]
  simp only [List.foldl_map]

theorem batchAssignments_keys (behav : Nat → Except Unit (List (String × String)))
    (groups : List WordGroup) :
    (batchAssignments behav groups).map Prod.fst =
      (orderGroupsLeftToRight groups).map (fun g => g.id) := by
  unfold batchAssignments
  rw [List.map_flatMap]
  simp only [List.map_map]
  have h1 : ((batchedGroups (orderGroupsLeftToRight groups)).enum).flatMap
      (fun p => p.2.1.map (fun g => g.id)) =
      ((batchedGroups (orderGroupsLeftToRight groups)).enum.map Prod.snd).flatMap
        (fun b => b.1.map (fun g => g.id)) := by
    rw [List.flatMap_map]
  have h2 : ((batchedGroups (orderGroupsLeftToRight groups)).flatMap
      (fun b => b.1.map (fun g => g.id))) =
      ((batchedGroups (orderGroupsLeftToRight groups)).flatMap (fun b => b.1)).map
        (fun g => g.id) := by
    rw [List.map_flatMap]
  have h3 := (batchedAux_spec (orderGroupsLeftToRight groups) [] [] 12 rfl rfl
    (by simp [MAX_ITEMS_PER_REQUEST]) (by intro h; simp at h)).1
  calc ((batchedGroups (orderGroupsLeftToRight groups)).enum).flatMap
        (fun p => (p.2.1.map (fun g => (Prod.fst ∘ fun g =>
          (g.id, translateValue (translationsOf behav p.1) g)) g)))
      = ((batchedGroups (orderGroupsLeftToRight groups)).enum).flatMap
        (fun p => p.2.1.map (fun g => g.id)) := rfl
    _ = ((batchedGroups (orderGroupsLeftToRight groups)).enum.map Prod.snd).flatMap
        (fun b => b.1.map (fun g => g.id)) := h1
    _ = ((batchedGroups (orderGroupsLeftToRight groups))).flatMap
        (fun b => b.1.map (fun g => g.id)) := by rw [List.enum_map_snd]
    _ = ((batchedGroups (orderGroupsLeftToRight groups)).flatMap (fun b => b.1)).map
        (fun g => g.id) := h2
    _ = (orderGroupsLeftToRight groups).map (fun g => g.id) := by
        rw [show (batchedGroups (orderGroupsLeftToRight groups)).flatMap (fun b => b.1) =
          orderGroupsLeftToRight groups from by simpa using h3]

/-- The final dict maps each group of batch `i` to the value computed for it
in that batch (the ids being pairwise distinct, no later write shadows it). -/
theorem translate_lookup_eq (behav : Nat → Except Unit (List (String × String)))
    (groups : List WordGroup) (hids : (groups.map (fun g => g.id)).Nodup)
    (i : Nat) (bg : List WordGroup) (pl : List PayloadEntry)
    (hget : (batchedGroups (orderGroupsLeftToRight groups))[i]? = some (bg, pl))
    (g : WordGroup) (hg : g ∈ bg) :
    (translate_groups_kr_to_en behav groups).lookup g.id =
      some (translateValue (translationsOf behav i) g) := by
  have hperm := orderGroupsLeftToRight_perm groups
  have hids' : ((orderGroupsLeftToRight groups).map (fun g => g.id)).Nodup :=
    ((hperm.map _).nodup_iff).mpr hids
  have hkeys := batchAssignments_keys behav groups
  have hnd : ((batchAssignments behav groups).map Prod.fst).Nodup := by
    rw [hkeys]
    exact hids'
  rw [translate_eq_foldl behav groups,
    foldl_dinsert_fresh (batchAssignments behav groups) [] (by simpa using hnd),
    List.nil_append]
  apply lookup_eq_of_mem_of_nodup _ _ _ hnd
  unfold batchAssignments
  refine List.mem_flatMap.mpr ⟨(i, (bg, pl)), ?_, ?_⟩
  · rw [List.mem_enum_iff_getElem?]
    exact hget
  · exact List.mem_map.mpr ⟨g, hg, rfl⟩

/-- Claim C1: for every input group list with pairwise-distinct non-empty ids
and every behaviour of the selected provider (a returned mapping or a raised
`TranslationError` per batch), `translate_groups_kr_to_en` returns a mapping
whose key set is exactly the input id set with no duplicates (the total
function never raises: a provider failure contributes the empty mapping), and
any id missing from its batch's successful response, or belonging to a failed
batch, is mapped to that group's own source text. -/
theorem claim_C1 (groups : List WordGroup) (behav : Nat → Except Unit (List (String × String)))
    (hids : (groups.map (fun g => g.id)).Nodup) (hne : ∀ g ∈ groups, g.id ≠ "") :
    ((∀ s, s ∈ (translate_groups_kr_to_en behav groups).map Prod.fst ↔
        s ∈ groups.map (fun g => g.id))
      ∧ ((translate_groups_kr_to_en behav groups).map Prod.fst).Nodup)
    ∧ (∀ (i : Nat) (bg : List WordGroup) (pl : List PayloadEntry),
        (batchedGroups (orderGroupsLeftToRight groups))[i]? = some (bg, pl) →
        ∀ g ∈ bg,
          (behav i = Except.error () ∨ (translationsOf behav i).lookup g.id = none) →
          (translate_groups_kr_to_en behav groups).lookup g.id = some g.kr_text) := by
  have hperm := orderGroupsLeftToRight_perm groups
  have hids' : ((orderGroupsLeftToRight groups).map (fun g => g.id)).Nodup :=
    ((hperm.map _).nodup_iff).mpr hids
  have hkeys := batchAssignments_keys behav groups
  have heq : (translate_groups_kr_to_en behav groups).map Prod.fst =
      (orderGroupsLeftToRight groups).map (fun g => g.id) := by
    rw [translate_eq_foldl behav groups,
      foldl_dinsert_fresh (batchAssignments behav groups) []
        (by simpa using (by rw [hkeys]; exact hids' :
          ((batchAssignments behav groups).map Prod.fst).Nodup)),
      List.nil_append, hkeys]
  constructor
  · constructor
    · intro s
      rw [heq]
      exact (hperm.map (fun g => g.id)).mem_iff
    · rw [heq]
      exact hids'
  · intro i bg pl hget g hg hmiss
    have hnone : (translationsOf behav i).lookup g.id = none := by
      rcases hmiss with hmiss | hmiss
      · simp [translationsOf, hmiss]
      · exact hmiss
    rw [translate_lookup_eq behav groups hids i bg pl hget g hg,
      translateValue_of_lookup_none _ _ hnone]

/-- Claim C10: a group in a successfully translated batch whose returned
mapping carries its id with the empty string is mapped to its own source
text, not to the empty string (`text or fallback_text` treats `""` as
falsy). -/
theorem claim_C10 (groups : List WordGroup) (behav : Nat → Except Unit (List (String × String)))
    (hids : (groups.map (fun g => g.id)).Nodup)
    (i : Nat) (bg : List WordGroup) (pl : List PayloadEntry)
    (hget : (batchedGroups (orderGroupsLeftToRight groups))[i]? = some (bg, pl))
    (g : WordGroup) (hg : g ∈ bg)
    (d : List (String × String)) (hok : behav i = Except.ok d)
    (hempty : d.lookup g.id = some ("")) :
    (translate_groups_kr_to_en behav groups).lookup g.id = some g.kr_text := by
  have htr : translationsOf behav i = d := by
    simp [translationsOf, hok]
  rw [translate_lookup_eq behav groups hids i bg pl hget g hg,
    translateValue_of_lookup_empty _ _ (by rw [htr]; exact hempty)]

/-- Witness for `claim_C1`: two distinct groups, one batch, a provider that
raises on every batch; both ids appear and map to their source texts. -/
theorem claim_C1_witness :
    (([(⟨"a", (0, 0, 10, 10), [0], Orientation.horizontal, "ka"⟩ : WordGroup),
        ⟨"b", (0, 200, 10, 210), [1], Orientation.horizontal, "kb"⟩].map
          (fun g => g.id)).Nodup)
    ∧ (((translate_groups_kr_to_en (fun _ => Except.error ())
          [⟨"a", (0, 0, 10, 10), [0], Orientation.horizontal, "ka"⟩,
           ⟨"b", (0, 200, 10, 210), [1], Orientation.horizontal, "kb"⟩]).map Prod.fst).Nodup)
    ∧ ((translate_groups_kr_to_en (fun _ => Except.error ())
          [⟨"a", (0, 0, 10, 10), [0], Orientation.horizontal, "ka"⟩,
           ⟨"b", (0, 200, 10, 210), [1], Orientation.horizontal, "kb"⟩]).lookup ("a") =
        some ("ka")) := by
  have h := claim_C1
    [⟨"a", (0, 0, 10, 10), [0], Orientation.horizontal, "ka"⟩,
     ⟨"b", (0, 200, 10, 210), [1], Orientation.horizontal, "kb"⟩]
    (fun _ => Except.error ()) (by decide) (by decide)
  refine ⟨by decide, h.1.2, ?_⟩
  exact h.2 0
    [⟨"a", (0, 0, 10, 10), [0], Orientation.horizontal, "ka"⟩,
     ⟨"b", (0, 200, 10, 210), [1], Orientation.horizontal, "kb"⟩]
    [⟨"a", "ka"⟩, ⟨"b", "kb"⟩] (by with_unfolding_all decide)
    ⟨"a", (0, 0, 10, 10), [0], Orientation.horizontal, "ka"⟩ (by decide) (Or.inl rfl)

/-- Witness for `claim_C10`: the provider succeeds but returns `""` for id
`a`; the result still carries the source text. -/
theorem claim_C10_witness :
    ((([(⟨"a", (0, 0, 10, 10), [0], Orientation.horizontal, "ka"⟩ : WordGroup),
        ⟨"b", (0, 200, 10, 210), [1], Orientation.horizontal, "kb"⟩].map
          (fun g => g.id)).Nodup)
      ∧ ((fun _ => Except.ok [("a", "")] :
            Nat → Except Unit (List (String × String))) 0 = Except.ok [("a", "")])
      ∧ (([("a", "")] : List (String × String)).lookup ("a") = some ("")))
    ∧ ((translate_groups_kr_to_en (fun _ => Except.ok [("a", "")])
          [⟨"a", (0, 0, 10, 10), [0], Orientation.horizontal, "ka"⟩,
           ⟨"b", (0, 200, 10, 210), [1], Orientation.horizontal, "kb"⟩]).lookup ("a") =
        some ("ka")) := by
  refine ⟨⟨by decide, rfl, by decide⟩, ?_⟩
  exact claim_C10
    [⟨"a", (0, 0, 10, 10), [0], Orientation.horizontal, "ka"⟩,
     ⟨"b", (0, 200, 10, 210), [1], Orientation.horizontal, "kb"⟩]
    (fun _ => Except.ok [("a", "")]) (by decide) 0
    [⟨"a", (0, 0, 10, 10), [0], Orientation.horizontal, "ka"⟩,
     ⟨"b", (0, 200, 10, 210), [1], Orientation.horizontal, "kb"⟩]
    [⟨"a", "ka"⟩, ⟨"b", "kb"⟩] (by with_unfolding_all decide)
    ⟨"a", (0, 0, 10, 10), [0], Orientation.horizontal, "ka"⟩ (by decide)
    [("a", "")] rfl (by decide)

/-- Witness for `claim_C3`: two small groups pack into one two-item batch
that reproduces the input and respects both caps. -/
theorem claim_C3_witness :
    ((batchedGroups
        [(⟨"a", (0, 0, 1, 1), [0], Orientation.horizontal, "x"⟩ : WordGroup),
         ⟨"b", (0, 0, 1, 1), [1], Orientation.horizontal, "y"⟩]).flatMap (fun b => b.1) =
      [⟨"a", (0, 0, 1, 1), [0], Orientation.horizontal, "x"⟩,
       ⟨"b", (0, 0, 1, 1), [1], Orientation.horizontal, "y"⟩])
    ∧ (([⟨"a", (0, 0, 1, 1), [0], Orientation.horizontal, "x"⟩,
         ⟨"b", (0, 0, 1, 1), [1], Orientation.horizontal, "y"⟩],
        [(⟨"a", "x"⟩ : PayloadEntry), ⟨"b", "y"⟩]) ∈
          batchedGroups
            [(⟨"a", (0, 0, 1, 1), [0], Orientation.horizontal, "x"⟩ : WordGroup),
             ⟨"b", (0, 0, 1, 1), [1], Orientation.horizontal, "y"⟩]
        ∧ ([(⟨"a", "x"⟩ : PayloadEntry), ⟨"b", "y"⟩].length ≠ 1))
    ∧ serializedSize [(⟨"a", "x"⟩ : PayloadEntry), ⟨"b", "y"⟩] ≤ MAX_JSON_CHARS_PER_REQUEST := by
  have h := claim_C3
    [⟨"a", (0, 0, 1, 1), [0], Orientation.horizontal, "x"⟩,
     ⟨"b", (0, 0, 1, 1), [1], Orientation.horizontal, "y"⟩]
  refine ⟨h.1, ⟨by with_unfolding_all decide, by decide⟩, ?_⟩
  exact (h.2.2
    ([⟨"a", (0, 0, 1, 1), [0], Orientation.horizontal, "x"⟩,
      ⟨"b", (0, 0, 1, 1), [1], Orientation.horizontal, "y"⟩],
     [⟨"a", "x"⟩, ⟨"b", "y"⟩]) (by with_unfolding_all decide)).2 (by decide)

/-! ## Claim C8: the merge pass on an already-merged set -/

/-- The fresh accumulator entry `_merge_adjacent_groups` appends when no
existing entry matches (the copied dict has no kr_text key). -/
def copyG (g : WordGroup) : WordGroup :=
  { id := g.id, bbox := g.bbox, word_idx := g.word_idx, orientation := g.orientation }

theorem mergeOne_none (g : WordGroup) (prox : ℚ) :
    ∀ acc : List WordGroup,
      (∀ e ∈ acc, ¬(e.orientation = g.orientation ∧ boxesClose e.bbox g.bbox prox = true)) →
      mergeOne g prox acc = none := by
  intro acc
  induction acc with
  | nil => intro _; rfl
  | cons e rest ih =>
      intro h
      rw [mergeOne, if_neg (h e (by simp)), ih (fun x hx => h x (by simp [hx]))]
      rfl

/-- When no processed group ever matches a later one, the accumulator loop
appends a fresh copy for every group. -/
theorem mergeFold_no_merge (prox : ℚ) :
    ∀ (rem ps : List WordGroup),
      (∀ g ∈ rem, ∀ e ∈ ps,
        ¬(e.orientation = g.orientation ∧ boxesClose e.bbox g.bbox prox = true)) →
      rem.Pairwise (fun a b =>
        ¬(a.orientation = b.orientation ∧ boxesClose a.bbox b.bbox prox = true)) →
      rem.foldl (mergeStep prox) (ps.map copyG) = (ps ++ rem).map copyG := by
  intro rem
  induction rem with
  | nil => intro ps _ _; simp
  | cons g rest ih =>
      intro ps hcross hpw
      have hnone : mergeOne g prox (ps.map copyG) = none := by
        apply mergeOne_none
        intro e' he'
        obtain ⟨e, he, rfl⟩ := List.mem_map.mp he'
        exact hcross g (by simp) e he
      have hstep : mergeStep prox (ps.map copyG) g = (ps ++ [g]).map copyG := by
        rw [mergeStep, hnone]
        simp [copyG]
      rw [List.foldl_cons, hstep,
        ih (ps ++ [g]) (fun g' hg' e he => by
          rcases List.mem_append.mp he with he | he
          · exact hcross g' (by simp [hg']) e he
          · rw [List.mem_singleton.mp he]
            exact (List.pairwise_cons.mp hpw).1 g' hg')
        (List.pairwise_cons.mp hpw).2]
      simp

theorem sortedDedup_toFinset (l : List Nat) : (sortedDedup l).toFinset = l.toFinset := by
  unfold sortedDedup
  rw [List.toFinset_eq_of_perm _ _ (stableSort_perm _ l.dedup)]
  exact List.toFinset.ext (fun x => List.mem_dedup)

/-- Mapping a function of the element only over an enumerated list forgets
the indices. -/
theorem map_enum_snd_comp {α β : Type} (f : α → β) (l : List α) :
    l.enum.map (fun p => f p.2) = l.map f := by
  rw [show (fun p : Nat × α => f p.2) = (f ∘ Prod.snd) from rfl, ← List.map_map,
    List.enum_map_snd]

/-- Claim C8: if no two groups of the input have matching orientation and
boxes within `max(12, radius × 0.6)` of each other (in either scan order),
the merge pass returns the same partition of word indices into groups — the
multiset of per-group index sets is unchanged (ids may differ). -/
theorem claim_C8 (groups : List WordGroup) (radius : ℚ)
    (hnc : groups.Pairwise (fun a b =>
      ¬(a.orientation = b.orientation ∧
          boxesClose a.bbox b.bbox (maxQ 12 (radius * (6 / 10))) = true) ∧
      ¬(b.orientation = a.orientation ∧
          boxesClose b.bbox a.bbox (maxQ 12 (radius * (6 / 10))) = true))) :
    ((mergeAdjacentGroups groups radius).map (fun g => g.word_idx.toFinset)).Perm
      (groups.map (fun g => g.word_idx.toFinset)) := by
  by_cases hlen : groups.length ≤ 1
  · rw [mergeAdjacentGroups, if_pos hlen]
  · rw [mergeAdjacentGroups, if_neg hlen]
    dsimp only
    have hps := stableSort_perm mergeSortKeyLe groups
    have hsymm : Symmetric (fun a b : WordGroup =>
        ¬(a.orientation = b.orientation ∧
            boxesClose a.bbox b.bbox (maxQ 12 (radius * (6 / 10))) = true) ∧
        ¬(b.orientation = a.orientation ∧
            boxesClose b.bbox a.bbox (maxQ 12 (radius * (6 / 10))) = true)) :=
      fun _ _ h => ⟨h.2, h.1⟩
    have hpw := (hps.pairwise_iff (fun h => ⟨h.2, h.1⟩)).mpr hnc
    have hfold := mergeFold_no_merge (maxQ 12 (radius * (6 / 10)))
      (stableSort mergeSortKeyLe groups) [] (by intro g _ e he; simp at he)
      (hpw.imp (fun h => h.1))
    simp only [List.map_nil, List.nil_append] at hfold
    rw [hfold, List.map_map]
    have h1 : ((stableSort mergeSortKeyLe groups).map copyG).enum.map
        ((fun g : WordGroup => g.word_idx.toFinset) ∘ (fun p =>
          { p.2 with
              word_idx := sortedDedup p.2.word_idx,
              id := "g_" ++ toString p.1 })) =
        ((stableSort mergeSortKeyLe groups).map copyG).enum.map
          (fun p => (fun g : WordGroup => (sortedDedup g.word_idx).toFinset) p.2) :=
      List.map_congr_left (fun p _ => rfl)
    rw [h1, map_enum_snd_comp (fun g : WordGroup => (sortedDedup g.word_idx).toFinset),
      List.map_map]
    have h2 : (((fun g : WordGroup => (sortedDedup g.word_idx).toFinset) ∘ copyG) :
        WordGroup → Finset Nat) = (fun g => (sortedDedup g.word_idx).toFinset) := rfl
    rw [h2]
    have h3 : (stableSort mergeSortKeyLe groups).map
        (fun g => (sortedDedup g.word_idx).toFinset) =
        (stableSort mergeSortKeyLe groups).map (fun g => g.word_idx.toFinset) :=
      List.map_congr_left (fun g _ => sortedDedup_toFinset g.word_idx)
    rw [h3]
    exact hps.map _

/-- Witness for `claim_C8`: two far-apart groups survive the merge pass with
their index sets intact. -/
theorem claim_C8_witness :
    ([(⟨"g_0", (0, 0, 10, 10), [0, 1], Orientation.horizontal, ""⟩ : WordGroup),
      ⟨"g_1", (500, 500, 510, 510), [2], Orientation.horizontal, ""⟩].Pairwise (fun a b =>
        ¬(a.orientation = b.orientation ∧
            boxesClose a.bbox b.bbox (maxQ 12 (14 * (6 / 10))) = true) ∧
        ¬(b.orientation = a.orientation ∧
            boxesClose b.bbox a.bbox (maxQ 12 (14 * (6 / 10))) = true)))
    ∧ ((mergeAdjacentGroups
          [⟨"g_0", (0, 0, 10, 10), [0, 1], Orientation.horizontal, ""⟩,
           ⟨"g_1", (500, 500, 510, 510), [2], Orientation.horizontal, ""⟩] 14).map
        (fun g => g.word_idx.toFinset)).Perm
      ([(⟨"g_0", (0, 0, 10, 10), [0, 1], Orientation.horizontal, ""⟩ : WordGroup),
        ⟨"g_1", (500, 500, 510, 510), [2], Orientation.horizontal, ""⟩].map
        (fun g => g.word_idx.toFinset)) := by
  refine ⟨by with_unfolding_all decide, ?_⟩
  exact claim_C8
    [⟨"g_0", (0, 0, 10, 10), [0, 1], Orientation.horizontal, ""⟩,
     ⟨"g_1", (500, 500, 510, 510), [2], Orientation.horizontal, ""⟩] 14
    (by with_unfolding_all decide)

/-! ## Claim C2: the partition property of `group_words` -/

theorem mem_getD_adj {adj : List (List Nat)} {n x : Nat}
    (h : x ∈ adj.getD n []) : ∃ l ∈ adj, x ∈ l := by
  by_cases hn : n < adj.length
  · rw [List.getD_eq_getElem?_getD, List.getElem?_eq_getElem hn] at h
    exact ⟨adj[n], List.getElem_mem hn, h⟩
  · rw [List.getD_eq_getElem?_getD, List.getElem?_eq_none (by omega : adj.length ≤ n)] at h
    simp at h

/-- What one BFS adds: a duplicate-free batch of fresh nodes, appended both to
the visited set and to the component, every one drawn from the initial queue
or from some adjacency list. -/
theorem bfs_spec (adj : List (List Nat)) :
    ∀ (fuel : Nat) (queue seen comp : List Nat),
      ∃ delta : List Nat,
        (bfs adj fuel queue seen comp).1 = seen ++ delta ∧
        (bfs adj fuel queue seen comp).2 = comp ++ delta ∧
        delta.Nodup ∧ (∀ x ∈ delta, x ∉ seen) ∧
        (∀ x ∈ delta, x ∈ queue ∨ ∃ l ∈ adj, x ∈ l) := by
  intro fuel
  induction fuel with
  | zero =>
      intro queue seen comp
      exact ⟨[], by simp [bfs], by simp [bfs], List.nodup_nil, by simp, by simp⟩
  | succ fuel ih =>
      intro queue seen comp
      cases queue with
      | nil => exact ⟨[], by simp [bfs], by simp [bfs], List.nodup_nil, by simp, by simp⟩
      | cons node rest =>
          by_cases hn : node ∈ seen
          · obtain ⟨delta, h1, h2, h3, h4, h5⟩ := ih rest seen comp
            refine ⟨delta, ?_, ?_, h3, h4, ?_⟩
            · rw [bfs, if_pos hn]
              exact h1
            · rw [bfs, if_pos hn]
              exact h2
            · intro x hx
              rcases h5 x hx with hq | hl
              · exact Or.inl (by simp [hq])
              · exact Or.inr hl
          · obtain ⟨delta, h1, h2, h3, h4, h5⟩ :=
              ih (rest ++ adj.getD node []) (seen ++ [node]) (comp ++ [node])
            refine ⟨node :: delta, ?_, ?_, ?_, ?_, ?_⟩
            · rw [bfs, if_neg hn, h1]
              simp
            · rw [bfs, if_neg hn, h2]
              simp
            · refine List.nodup_cons.mpr ⟨?_, h3⟩
              intro hmem
              exact h4 node hmem (by simp)
            · intro x hx
              rcases List.mem_cons.mp hx with rfl | hx
              · exact hn
              · intro hxs
                exact h4 x hx (by simp [hxs])
            · intro x hx
              rcases List.mem_cons.mp hx with rfl | hx
              · exact Or.inl (by simp)
              · rcases h5 x hx with hq | hl
                · rcases List.mem_append.mp hq with hq | hq
                  · exact Or.inl (by simp [hq])
                  · exact Or.inr (mem_getD_adj hq)
                · exact Or.inr hl

/-- A fresh start node always lands in its own component. -/
theorem bfs_mem_comp (adj : List (List Nat)) (fuel : Nat) (start : Nat) (seen : List Nat)
    (h : start ∉ seen) : start ∈ (bfs adj (fuel + 1) [start] seen []).2 := by
  rw [bfs, if_neg h]
  obtain ⟨delta, _, h2, _, _, _⟩ := bfs_spec adj fuel ([] ++ adj.getD start [])
    (seen ++ [start]) ([] ++ [start])
  rw [h2]
  simp

/-- What the outer component loop produces: the concatenation of its
components is a duplicate-free set of fresh nodes, each a start node or an
adjacency-list member, and every start node ends up visited. -/
theorem ccAux_spec (adj : List (List Nat)) (fuel : Nat) :
    ∀ (starts seen : List Nat),
      ∃ delta : List Nat,
        (ccAux adj (fuel + 1) starts seen).flatten = delta ∧
        delta.Nodup ∧ (∀ x ∈ delta, x ∉ seen) ∧
        (∀ x ∈ delta, x ∈ starts ∨ ∃ l ∈ adj, x ∈ l) ∧
        (∀ s ∈ starts, s ∈ seen ∨ s ∈ delta) := by
  intro starts
  induction starts with
  | nil => exact fun seen => ⟨[], by simp [ccAux], List.nodup_nil, by simp, by simp, by simp⟩
  | cons start rest ih =>
      intro seen
      by_cases hs : start ∈ seen
      · obtain ⟨delta, h1, h2, h3, h4, h5⟩ := ih seen
        refine ⟨delta, ?_, h2, h3, ?_, ?_⟩
        · rw [ccAux, if_pos hs]
          exact h1
        · intro x hx
          rcases h4 x hx with hq | hl
          · exact Or.inl (by simp [hq])
          · exact Or.inr hl
        · intro s hsm
          rcases List.mem_cons.mp hsm with rfl | hsm
          · exact Or.inl hs
          · exact h5 s hsm
      · obtain ⟨d₁, hb1, hb2, hb3, hb4, hb5⟩ := bfs_spec adj (fuel + 1) [start] seen []
        obtain ⟨d₂, h1, h2, h3, h4, h5⟩ := ih (seen ++ d₁)
        have hstart : start ∈ (bfs adj (fuel + 1) [start] seen []).2 :=
          bfs_mem_comp adj fuel start seen hs
        rw [hb2] at hstart
        simp only [List.nil_append] at hstart
        refine ⟨d₁ ++ d₂, ?_, ?_, ?_, ?_, ?_⟩
        · rw [ccAux, if_neg hs]
          simp only [List.flatten_cons]
          rw [hb2, hb1, h1]
          simp
        · refine List.nodup_append.mpr ⟨hb3, h2, ?_⟩
          intro x hx hx2
          exact h3 x hx2 (by simp [hx])
        · intro x hx
          rcases List.mem_append.mp hx with hx | hx
          · exact hb4 x (by simpa using hx)
          · intro hxs
            exact h3 x hx (by simp [hxs])
        · intro x hx
          rcases List.mem_append.mp hx with hx | hx
          · rcases hb5 x (by simpa using hx) with hq | hl
            · exact Or.inl (by simp at hq; simp [hq])
            · exact Or.inr hl
          · rcases h4 x hx with hq | hl
            · exact Or.inl (by simp [hq])
            · exact Or.inr hl
        · intro s hsm
          rcases List.mem_cons.mp hsm with rfl | hsm
          · exact Or.inr (List.mem_append.mpr (Or.inl hstart))
          · rcases h5 s hsm with hq | hl
            · rcases List.mem_append.mp hq with hq | hq
              · exact Or.inl hq
              · exact Or.inr (List.mem_append.mpr (Or.inl hq))
            · exact Or.inr (List.mem_append.mpr (Or.inr hl))

/-- When every adjacency entry is a valid index, the connected components
partition the index range exactly. -/
theorem connectedComponents_partition (adj : List (List Nat))
    (hadj : ∀ l ∈ adj, ∀ j ∈ l, j < adj.length) :
    ((connectedComponents adj).flatten).Perm (List.range adj.length) := by
  have hfuel : ∃ f, 1 + adj.length + (adj.map List.length).sum = f + 1 :=
    ⟨adj.length + (adj.map List.length).sum, by omega⟩
  obtain ⟨f, hf⟩ := hfuel
  rw [connectedComponents, hf]
  obtain ⟨delta, h1, h2, h3, h4, h5⟩ := ccAux_spec adj f (List.range adj.length) []
  rw [h1]
  rw [List.perm_ext_iff_of_nodup h2 (List.nodup_range _)]
  intro x
  constructor
  · intro hx
    rcases h4 x hx with hq | ⟨l, hl, hxl⟩
    · exact hq
    · exact List.mem_range.mpr (hadj l hl x hxl)
  · intro hx
    rcases h5 x hx with hq | hq
    · simp at hq
    · exact hq

theorem neighborsNaive_valid (points : List Point) (radius : ℚ) :
    ∀ l ∈ neighborsNaive points radius, ∀ j ∈ l, j < (neighborsNaive points radius).length := by
  intro l hl j hj
  obtain ⟨i, _, rfl⟩ := List.mem_map.mp hl
  have hj' := List.mem_filter.mp hj
  have : j ∈ List.range points.length := hj'.1
  simp only [neighborsNaive, List.length_map, List.length_range]
  exact List.mem_range.mp this

/-- A successful inner scan fuses the group into the first matching entry and
leaves everything else in place. -/
theorem mergeOne_eq_some (g : WordGroup) (prox : ℚ) :
    ∀ acc acc', mergeOne g prox acc = some acc' →
      ∃ pre t post, acc = pre ++ t :: post ∧ acc' = pre ++ mergeInto t g :: post := by
  intro acc
  induction acc with
  | nil => intro acc' h; simp [mergeOne] at h
  | cons e rest ih =>
      intro acc' h
      by_cases hc : e.orientation = g.orientation ∧ boxesClose e.bbox g.bbox prox = true
      · rw [mergeOne, if_pos hc] at h
        simp only [Option.some.injEq] at h
        exact ⟨[], e, rest, by simp, by simp [← h]⟩
      · rw [mergeOne, if_neg hc] at h
        cases hm : mergeOne g prox rest with
        | none => rw [hm] at h; simp at h
        | some acc'' =>
            rw [hm] at h
            simp only [Option.map_some', Option.some.injEq] at h
            obtain ⟨pre, t, post, h1, h2⟩ := ih acc'' hm
            exact ⟨e :: pre, t, post, by simp [h1], by simp [← h, h2]⟩

/-- Fusing an index list into an earlier one preserves pairwise
disjointness of the whole collection. -/
theorem pairwise_disjoint_merge (pre post rest : List (List Nat)) (t g : List Nat)
    (H : List.Pairwise List.Disjoint ((pre ++ t :: post) ++ g :: rest)) :
    List.Pairwise List.Disjoint (pre ++ (t ++ g) :: (post ++ rest)) := by
  rw [List.pairwise_append] at H
  obtain ⟨H1, H2, H3⟩ := H
  rw [List.pairwise_append] at H1
  obtain ⟨P1, P2, P3⟩ := H1
  rw [List.pairwise_cons] at P2
  obtain ⟨Pt, Ppost⟩ := P2
  rw [List.pairwise_cons] at H2
  obtain ⟨Hg, Hrest⟩ := H2
  rw [List.pairwise_append]
  refine ⟨P1, ?_, ?_⟩
  · rw [List.pairwise_cons]
    constructor
    · intro b hb
      rw [List.disjoint_append_left]
      rcases List.mem_append.mp hb with hb | hb
      · exact ⟨Pt b hb, (H3 b (by simp [hb]) g (by simp)).symm⟩
      · exact ⟨H3 t (by simp) b (by simp [hb]), Hg b hb⟩
    · rw [List.pairwise_append]
      refine ⟨Ppost, Hrest, ?_⟩
      intro a ha b hb
      exact H3 a (by simp [ha]) b (by simp [hb])
  · intro a ha b hb
    rcases List.mem_cons.mp hb with rfl | hb
    · rw [List.disjoint_append_right]
      exact ⟨P3 a ha t (by simp), H3 a (by simp [ha]) g (by simp)⟩
    · rcases List.mem_append.mp hb with hb | hb
      · exact P3 a ha b (by simp [hb])
      · exact H3 a (by simp [ha]) b (by simp [hb])

/-- The same fusion only reorders the flattened indices. -/
theorem flatten_merge_perm (pre post rest : List (List Nat)) (t g : List Nat) :
    ((pre ++ (t ++ g) :: (post ++ rest)).flatten).Perm
      (((pre ++ t :: post) ++ g :: rest).flatten) := by
  simp only [List.flatten_append, List.flatten_cons, List.append_assoc]
  refine List.Perm.append_left pre.flatten (List.Perm.append_left t ?_)
  have h : ((g ++ post.flatten) ++ rest.flatten).Perm
      ((post.flatten ++ g) ++ rest.flatten) :=
    (@List.perm_append_comm _ g post.flatten).append_right rest.flatten
  simpa [List.append_assoc] using h

theorem flatMap_congr_perm_mem {α β : Type} (f g : α → List β) :
    ∀ l : List α, (∀ a ∈ l, (f a).Perm (g a)) → (l.flatMap f).Perm (l.flatMap g) := by
  intro l
  induction l with
  | nil => intro _; exact List.Perm.refl _
  | cons x xs ih =>
      intro h
      simpa [List.flatMap_cons] using (h x (by simp)).append (ih (fun a ha => h a (by simp [ha])))

/-- Joint invariant of the accumulator loop of `_merge_adjacent_groups`: if
the index lists of the accumulator and of the remaining groups are pairwise
disjoint and individually duplicate-free, the loop only regroups indices —
the flattened multiset is preserved — and both properties still hold of its
output. -/
theorem mergeFold_spec (prox : ℚ) :
    ∀ (rem acc : List WordGroup),
      List.Pairwise List.Disjoint
        (acc.map (fun g => g.word_idx) ++ rem.map (fun g => g.word_idx)) →
      (∀ l ∈ acc.map (fun g => g.word_idx) ++ rem.map (fun g => g.word_idx), l.Nodup) →
      (((rem.foldl (mergeStep prox) acc).map (fun g => g.word_idx)).flatten).Perm
        ((acc.map (fun g => g.word_idx) ++ rem.map (fun g => g.word_idx)).flatten) ∧
      List.Pairwise List.Disjoint
        ((rem.foldl (mergeStep prox) acc).map (fun g => g.word_idx)) ∧
      (∀ l ∈ (rem.foldl (mergeStep prox) acc).map (fun g => g.word_idx), l.Nodup) := by
  intro rem
  induction rem with
  | nil =>
      intro acc hpw hnd
      simp only [List.foldl_nil, List.map_nil, List.append_nil] at *
      exact ⟨List.Perm.refl _, hpw, hnd⟩
  | cons g rest ih =>
      intro acc hpw hnd
      rw [List.foldl_cons]
      rcases hm : mergeOne g prox acc with _ | acc''
      · have hstep : mergeStep prox acc g = acc ++ [copyG g] := by
          rw [mergeStep, hm]
          rfl
        rw [hstep]
        have hlist : (acc ++ [copyG g]).map (fun g => g.word_idx) ++
            rest.map (fun g => g.word_idx) =
            acc.map (fun g => g.word_idx) ++ (g :: rest).map (fun g => g.word_idx) := by
          simp [copyG]
        obtain ⟨f1, f2, f3⟩ := ih (acc ++ [copyG g])
          (by rw [hlist]; exact hpw) (by rw [hlist]; exact hnd)
        exact ⟨f1.trans (by rw [hlist]), f2, f3⟩
      · have hstep : mergeStep prox acc g = acc'' := by
          rw [mergeStep, hm]
        rw [hstep]
        obtain ⟨pre, t, post, hacc, hacc'⟩ := mergeOne_eq_some g prox acc acc'' hm
        have hold : acc.map (fun g => g.word_idx) ++ (g :: rest).map (fun g => g.word_idx) =
            (pre.map (fun g => g.word_idx) ++ t.word_idx :: post.map (fun g => g.word_idx)) ++
              g.word_idx :: rest.map (fun g => g.word_idx) := by
          rw [hacc]
          simp
        have hnew : acc''.map (fun g => g.word_idx) ++ rest.map (fun g => g.word_idx) =
            pre.map (fun g => g.word_idx) ++ (t.word_idx ++ g.word_idx) ::
              (post.map (fun g => g.word_idx) ++ rest.map (fun g => g.word_idx)) := by
          rw [hacc']
          simp [mergeInto]
        have hpwold : List.Pairwise List.Disjoint
            ((pre.map (fun g => g.word_idx) ++ t.word_idx :: post.map (fun g => g.word_idx)) ++
              g.word_idx :: rest.map (fun g => g.word_idx)) := by
          rw [← hold]
          exact hpw
        have hpw' : List.Pairwise List.Disjoint
            (acc''.map (fun g => g.word_idx) ++ rest.map (fun g => g.word_idx)) := by
          rw [hnew]
          exact pairwise_disjoint_merge _ _ _ _ _ hpwold
        have hdtg : t.word_idx.Disjoint g.word_idx := by
          have := (List.pairwise_append.mp hpwold).2.2
          exact this t.word_idx (by simp) g.word_idx (by simp)
        have hnd' : ∀ l ∈ acc''.map (fun g => g.word_idx) ++ rest.map (fun g => g.word_idx),
            l.Nodup := by
          rw [hnew]
          intro l hl
          rcases List.mem_append.mp hl with hl | hl
          · exact hnd l (by rw [hold]; simp [hl])
          · rcases List.mem_cons.mp hl with rfl | hl
            · refine List.nodup_append.mpr ⟨?_, ?_, hdtg⟩
              · exact hnd t.word_idx (by rw [hold]; simp)
              · exact hnd g.word_idx (by rw [hold]; simp)
            · rcases List.mem_append.mp hl with hl | hl
              · exact hnd l (by rw [hold]; simp [hl])
              · exact hnd l (by rw [hold]; simp [hl])
        obtain ⟨f1, f2, f3⟩ := ih acc'' hpw' hnd'
        refine ⟨f1.trans ?_, f2, f3⟩
        rw [hnew, hold]
        exact flatten_merge_perm _ _ _ _ _

theorem sortedDedup_perm_self (l : List Nat) (h : l.Nodup) : (sortedDedup l).Perm l := by
  unfold sortedDedup
  refine (stableSort_perm _ l.dedup).trans ?_
  rw [List.dedup_eq_self.mpr h]

/-- flatMapping a function of the element only over an enumerated list
forgets the indices. -/
theorem flatMap_enum_snd_comp {α β : Type} (f : α → List β) (l : List α) :
    l.enum.flatMap (fun p => f p.2) = l.flatMap f := by
  rw [show l.enum.flatMap (fun p => f p.2) = (l.enum.map Prod.snd).flatMap f from
    (List.flatMap_map _ _ _).symm, List.enum_map_snd]

/-- `_merge_adjacent_groups` only regroups word indices: when the input index
lists concatenate to a duplicate-free list, the output flattens to a
permutation of the input flattening. -/
theorem mergeAdjacent_flatMap_perm (groups : List WordGroup) (radius : ℚ)
    (h : ((groups.map (fun g => g.word_idx)).flatten).Nodup) :
    ((mergeAdjacentGroups groups radius).flatMap (fun g => g.word_idx)).Perm
      (groups.flatMap (fun g => g.word_idx)) := by
  by_cases hlen : groups.length ≤ 1
  · rw [mergeAdjacentGroups, if_pos hlen]
  · rw [mergeAdjacentGroups, if_neg hlen]
    dsimp only
    have hps := stableSort_perm mergeSortKeyLe groups
    have hmapperm : ((stableSort mergeSortKeyLe groups).map (fun g => g.word_idx)).Perm
        (groups.map (fun g => g.word_idx)) := hps.map _
    have hflnd : (((stableSort mergeSortKeyLe groups).map (fun g => g.word_idx)).flatten).Nodup :=
      (hmapperm.flatten.nodup_iff).mpr h
    obtain ⟨hndEach, hpwd⟩ := List.nodup_flatten.mp hflnd
    obtain ⟨f1, f2, f3⟩ := mergeFold_spec (maxQ 12 (radius * (6 / 10)))
      (stableSort mergeSortKeyLe groups) [] (by simpa using hpwd) (by simpa using hndEach)
    simp only [List.map_nil, List.nil_append] at f1
    have hstep1 : ((((stableSort mergeSortKeyLe groups).foldl
        (mergeStep (maxQ 12 (radius * (6 / 10)))) []).enum.map (fun p =>
          ({ p.2 with
              word_idx := sortedDedup p.2.word_idx,
              id := "g_" ++ toString p.1 } : WordGroup))).flatMap (fun g => g.word_idx)) =
        (((stableSort mergeSortKeyLe groups).foldl
          (mergeStep (maxQ 12 (radius * (6 / 10)))) []).enum.flatMap (fun p =>
            (fun g : WordGroup => sortedDedup g.word_idx) p.2)) := by
      rw [List.flatMap_map]
    rw [hstep1, flatMap_enum_snd_comp (fun g : WordGroup => sortedDedup g.word_idx)]
    have hstep2 : ((((stableSort mergeSortKeyLe groups).foldl
        (mergeStep (maxQ 12 (radius * (6 / 10)))) []).flatMap (fun g =>
          (fun g : WordGroup => sortedDedup g.word_idx) g))).Perm
        ((((stableSort mergeSortKeyLe groups).foldl
          (mergeStep (maxQ 12 (radius * (6 / 10)))) [])).flatMap (fun g => g.word_idx)) := by
      refine flatMap_congr_perm_mem _ _ _ ?_
      intro a ha
      refine sortedDedup_perm_self a.word_idx ?_
      exact f3 a.word_idx (List.mem_map.mpr ⟨a, ha, rfl⟩)
    refine hstep2.trans ?_
    rw [List.flatMap_def]
    refine f1.trans ?_
    rw [← List.flatMap_def, ← List.flatMap_def] at *
    refine List.Perm.trans ?_ (List.Perm.refl _)
    rw [List.flatMap_def, List.flatMap_def]
    exact hmapperm.flatten

/-- Claim C2: for every non-empty OCR word list, the `word_idx` lists of the
groups returned by `group_words` partition the input index range exactly —
their concatenation is a permutation of `[0, …, n−1]` (no index lost, none
duplicated). -/
theorem claim_C2 (words : List OCRWord) (hw : words ≠ []) :
    ((group_words words).flatMap (fun g => g.word_idx)).Perm
      (List.range words.length) := by
  rw [group_words, if_neg hw]
  dsimp only
  have hadj := neighborsNaive_valid
    ((words.map (fun w => polygonToBox w.poly)).map boxCenter) (groupRadius words)
  have hcc := connectedComponents_partition
    (neighborsNaive ((words.map (fun w => polygonToBox w.poly)).map boxCenter)
      (groupRadius words)) hadj
  have hlen : (neighborsNaive ((words.map (fun w => polygonToBox w.poly)).map boxCenter)
      (groupRadius words)).length = words.length := by
    simp [neighborsNaive]
  rw [hlen] at hcc
  have hmap : (((connectedComponents
      (neighborsNaive ((words.map (fun w => polygonToBox w.poly)).map boxCenter)
        (groupRadius words))).enum.map (fun p =>
          ({ id := "g_" ++ toString p.1,
             bbox := compBBox (words.map (fun w => polygonToBox w.poly)) p.2,
             word_idx := p.2,
             orientation := orientationOf
               ((words.map (fun w => polygonToBox w.poly)).map boxCenter) p.2 }
            : WordGroup))).map (fun g => g.word_idx)) =
      (connectedComponents
        (neighborsNaive ((words.map (fun w => polygonToBox w.poly)).map boxCenter)
          (groupRadius words))) := by
    rw [List.map_map]
    have h1 : ∀ (l : List (Nat × List Nat)) (f : Nat × List Nat → WordGroup),
        (∀ p, (f p).word_idx = p.2) → l.map ((fun g : WordGroup => g.word_idx) ∘ f) =
          l.map (fun p => (fun c : List Nat => c) p.2) :=
      fun l f hf => List.map_congr_left (fun p _ => hf p)
    rw [h1 _ _ (fun p => rfl), map_enum_snd_comp (fun c : List Nat => c)]
    exact List.map_id' _
  have hnd : ((((connectedComponents
      (neighborsNaive ((words.map (fun w => polygonToBox w.poly)).map boxCenter)
        (groupRadius words))).enum.map (fun p =>
          ({ id := "g_" ++ toString p.1,
             bbox := compBBox (words.map (fun w => polygonToBox w.poly)) p.2,
             word_idx := p.2,
             orientation := orientationOf
               ((words.map (fun w => polygonToBox w.poly)).map boxCenter) p.2 }
            : WordGroup))).map (fun g => g.word_idx)).flatten).Nodup := by
    rw [hmap]
    exact (hcc.nodup_iff).mpr (List.nodup_range _)
  refine (mergeAdjacent_flatMap_perm _ _ hnd).trans ?_
  rw [List.flatMap_def, hmap]
  exact hcc

/-- Witness for `claim_C2`: three words, two near and one far, partition the
index range `{0, 1, 2}`. -/
theorem claim_C2_witness :
    ([(⟨"w0", [(0, 0), (10, 0), (10, 10), (0, 10)]⟩ : OCRWord),
      ⟨"w1", [(12, 0), (22, 0), (22, 10), (12, 10)]⟩,
      ⟨"w2", [(500, 500), (510, 500), (510, 510), (500, 510)]⟩] ≠ ([] : List OCRWord))
    ∧ ((group_words
        [⟨"w0", [(0, 0), (10, 0), (10, 10), (0, 10)]⟩,
         ⟨"w1", [(12, 0), (22, 0), (22, 10), (12, 10)]⟩,
         ⟨"w2", [(500, 500), (510, 500), (510, 510), (500, 510)]⟩]).flatMap
            (fun g => g.word_idx)).Perm
        (List.range
          ([(⟨"w0", [(0, 0), (10, 0), (10, 10), (0, 10)]⟩ : OCRWord),
            ⟨"w1", [(12, 0), (22, 0), (22, 10), (12, 10)]⟩,
            ⟨"w2", [(500, 500), (510, 500), (510, 510), (500, 510)]⟩].length)) := by
  refine ⟨by decide, ?_⟩
  exact claim_C2
    [⟨"w0", [(0, 0), (10, 0), (10, 10), (0, 10)]⟩,
     ⟨"w1", [(12, 0), (22, 0), (22, 10), (12, 10)]⟩,
     ⟨"w2", [(500, 500), (510, 500), (510, 510), (500, 510)]⟩] (by decide)

end MangaTranslator
